import Mathlib

/-!
Verification of the Sumo-algo-comparison repository against its
natural-language specification.

The embedding below translates the repository's Python sources
(`Final2.py`, `FinalnoTLS.py`, `dijkstra.py`, `run_dijkstra.py`) into Lean
definitions.  Floating point numbers are modelled as rationals (the code
performs only +, -, *, /, min, max and comparisons on them); Python's
`None` and probe failures (caught `TraCIException`s) are modelled with
`Option`; live collaborator queries (SUMO via traci, networkx) are passed
in as explicit inputs, since they are external to the repository.
-/

/-! ## Rolling windows (FinalnoTLS.py `EDGE_BUF`, `expected_speed`) -/

/-- `WINDOW_N = 10` (FinalnoTLS.py line 39). -/
def WINDOW_N : ℕ := 10

/-- One `deque(maxlen=WINDOW_N).append(x)` step: append on the right and, if
capacity is exceeded, drop from the left (the Python deque drops exactly one
element; dropping down to the last `WINDOW_N` is the same operation for any
window that never exceeded capacity). -/
def pushWin (w : List ℚ) (x : ℚ) : List ℚ :=
  let w' := w ++ [x]
  if WINDOW_N < w'.length then w'.drop (w'.length - WINDOW_N) else w'

/-- Pushing a whole sample sequence into an initially empty window. -/
def winFold (xs : List ℚ) : List ℚ := xs.foldl pushWin []

/-- Arithmetic mean of a window, `sum(buf)/len(buf)` (FinalnoTLS.py 229-230). -/
def meanOf (w : List ℚ) : ℚ := w.sum / (w.length : ℚ)

theorem pushWin_eq_drop (w : List ℚ) (x : ℚ) (_h : w.length ≤ WINDOW_N) :
    pushWin w x = (w ++ [x]).drop (w.length + 1 - WINDOW_N) := by
  unfold pushWin
  by_cases h10 : WINDOW_N < (w ++ [x]).length
  · simp only [h10, if_true]
    simp [List.length_append]
  · simp only [h10, if_false]
    have : w.length + 1 - WINDOW_N = 0 := by
      simp [List.length_append] at h10
      omega
    simp [this]

theorem pushWin_length (w : List ℚ) (x : ℚ) (h : w.length ≤ WINDOW_N) :
    (pushWin w x).length ≤ WINDOW_N := by
  rw [pushWin_eq_drop w x h]
  simp [List.length_append]
  omega

theorem winFoldFrom_eq_drop (xs : List ℚ) :
    ∀ w : List ℚ, w.length ≤ WINDOW_N →
      xs.foldl pushWin w = (w ++ xs).drop (w.length + xs.length - WINDOW_N) := by
  induction xs with
  | nil =>
    intro w hw
    have h0 : w.length - WINDOW_N = 0 := by omega
    simp [h0]
  | cons x xs ih =>
    intro w hw
    have hlen := pushWin_length w x hw
    have hdrop := pushWin_eq_drop w x hw
    simp only [List.foldl_cons]
    rw [ih (pushWin w x) hlen]
    have hlen2 : (pushWin w x).length = w.length + 1 - (w.length + 1 - WINDOW_N) := by
      rw [hdrop]
      simp [List.length_append]
    set d := w.length + 1 - WINDOW_N with hd
    have hdle : d ≤ (w ++ [x]).length := by
      simp only [List.length_append, List.length_cons, List.length_nil]
      omega
    have happ : pushWin w x ++ xs = ((w ++ [x]) ++ xs).drop d := by
      rw [List.drop_append_of_le_length hdle, hdrop]
    rw [happ, List.drop_drop]
    have hassoc : (w ++ [x]) ++ xs = w ++ (x :: xs) := by simp
    rw [hassoc]
    congr 1
    rw [hlen2]
    simp only [List.length_cons]
    omega

/-- The window after pushing `xs` is exactly the most recent
`WINDOW_N` samples of `xs`. -/
theorem winFold_eq_drop (xs : List ℚ) :
    winFold xs = xs.drop (xs.length - WINDOW_N) := by
  have := winFoldFrom_eq_drop xs [] (by simp [WINDOW_N])
  simpa [winFold] using this

theorem winFold_length (xs : List ℚ) : (winFold xs).length ≤ WINDOW_N := by
  rw [winFold_eq_drop]
  simp
  omega

/-! ## Condition sampler (FinalnoTLS.py `expected_speed`, lines 205-239) -/

/-- Raw occupancy observation as returned by the live query: a numeric value,
a float NaN, a non-numeric value, or a failed query (caught exception, which
`expected_speed` replaces by `0.0` before the sanity checks). -/
inductive OccProbe
  | val (q : ℚ)
  | nanv
  | nonNumeric
  | failed
deriving DecidableEq

/-- FinalnoTLS.py line 28. -/
def MIN_SPEED_FRACTION : ℚ := 0.3
/-- FinalnoTLS.py line 29. -/
def OCCUPANCY_FREE_THRESH : ℚ := 0.1
/-- FinalnoTLS.py line 30. -/
def SMOOTHING_MIN_SPEED : ℚ := 1.5

/-- The occupancy sample actually pushed into the window
(FinalnoTLS.py 206-217): failed query → `0.0`; non-numeric or NaN
(`occ != occ`) → `0.0`; then clamp `max(0.0, min(1.0, occ))`. -/
def occSample : OccProbe → ℚ
  | .val q => max 0 (min 1 q)
  | .nanv => 0
  | .nonNumeric => 0
  | .failed => 0

/-- The mean-speed sample pushed into the speed window (FinalnoTLS.py
210-220): a failed query gives `None`; `None`, non-numeric or non-positive
values are replaced by `speed_limit * MIN_SPEED_FRACTION`.  (A float NaN
mean speed passes both guards in the Python; NaN has no rational
counterpart and no claim depends on the speed window's values.) -/
def speedSample (speed_limit : ℚ) : Option ℚ → ℚ
  | some q => if q ≤ 0 then speed_limit * MIN_SPEED_FRACTION else q
  | none => speed_limit * MIN_SPEED_FRACTION

/-- One entry of `EDGE_BUF` (FinalnoTLS.py 39-40, 222-225): per-segment
speed and occupancy windows. -/
structure EdgeBuf where
  speed : List ℚ
  occ : List ℚ
deriving DecidableEq

/-- `expected_speed(out_edge, speed_limit)` (FinalnoTLS.py 205-239),
with the live probes and the segment's buffer passed explicitly.  Returns
`(use_speed, sm_occ)` together with the updated buffer. -/
def fnt_expected_speed (speed_limit : ℚ) (occP : OccProbe) (msP : Option ℚ)
    (buf : EdgeBuf) : (ℚ × ℚ) × EdgeBuf :=
  let occ := occSample occP
  let mean_speed := speedSample speed_limit msP
  let buf' : EdgeBuf := ⟨pushWin buf.speed mean_speed, pushWin buf.occ occ⟩
  let sm_speed := meanOf buf'.speed
  let sm_occ := meanOf buf'.occ
  let use_speed :=
    if sm_occ < OCCUPANCY_FREE_THRESH then max speed_limit 0.1
    else if SMOOTHING_MIN_SPEED < sm_speed then sm_speed
    else max (speed_limit * MIN_SPEED_FRACTION) 0.1
  ((use_speed, sm_occ), buf')

/-- A refresh history for one segment: each element is
`(speed_limit, occupancy probe, mean-speed probe)`. -/
def bufAfter (hist : List (ℚ × OccProbe × Option ℚ)) : EdgeBuf :=
  hist.foldl (fun b h => (fnt_expected_speed h.1 h.2.1 h.2.2 b).2) ⟨[], []⟩

/-- The sanitized occupancy samples of a history, in push order. -/
def occStream (hist : List (ℚ × OccProbe × Option ℚ)) : List ℚ :=
  hist.map (fun h => occSample h.2.1)

/-- The sanitized speed samples of a history, in push order. -/
def speedStream (hist : List (ℚ × OccProbe × Option ℚ)) : List ℚ :=
  hist.map (fun h => speedSample h.1 h.2.2)

theorem occSample_bounds (p : OccProbe) : 0 ≤ occSample p ∧ occSample p ≤ 1 := by
  cases p with
  | val q =>
    refine ⟨le_max_left 0 _, ?_⟩
    simp only [occSample]
    exact max_le (by norm_num) (min_le_left 1 q)
  | nanv => simp [occSample]
  | nonNumeric => simp [occSample]
  | failed => simp [occSample]

theorem pushWin_sub (w : List ℚ) (x : ℚ) : pushWin w x ⊆ w ++ [x] := by
  unfold pushWin
  by_cases h : WINDOW_N < (w ++ [x]).length
  · rw [if_pos h]
    exact List.drop_subset _ _
  · rw [if_neg h]
    exact fun a ha => ha

theorem pushWin_ne_nil (w : List ℚ) (x : ℚ) : pushWin w x ≠ [] := by
  unfold pushWin
  by_cases h : WINDOW_N < (w ++ [x]).length
  · rw [if_pos h]
    apply List.ne_nil_of_length_pos
    rw [List.length_drop]
    simp only [List.length_append, List.length_cons, List.length_nil] at h ⊢
    unfold WINDOW_N at h ⊢
    omega
  · rw [if_neg h]
    simp

theorem meanOf_bounds (w : List ℚ) (hne : w ≠ [])
    (hb : ∀ y ∈ w, 0 ≤ y ∧ y ≤ 1) : 0 ≤ meanOf w ∧ meanOf w ≤ 1 := by
  have hlen : 0 < (w.length : ℚ) := by
    have : 0 < w.length := List.length_pos.mpr hne
    exact_mod_cast this
  have hsum0 : 0 ≤ w.sum := List.sum_nonneg (fun y hy => (hb y hy).1)
  have hsum1 : w.sum ≤ (w.length : ℚ) := by
    have := List.sum_le_card_nsmul w 1 (fun y hy => (hb y hy).2)
    simpa [nsmul_eq_mul] using this
  constructor
  · exact div_nonneg hsum0 (le_of_lt hlen)
  · rw [meanOf, div_le_one hlen]
    exact hsum1

theorem bufAfter_eq (hist : List (ℚ × OccProbe × Option ℚ)) :
    bufAfter hist = ⟨winFold (speedStream hist), winFold (occStream hist)⟩ := by
  suffices h : ∀ b : EdgeBuf,
      hist.foldl (fun b h => (fnt_expected_speed h.1 h.2.1 h.2.2 b).2) b =
        ⟨(speedStream hist).foldl pushWin b.speed, (occStream hist).foldl pushWin b.occ⟩ by
    exact h ⟨[], []⟩
  induction hist with
  | nil => intro b; rfl
  | cons x xs ih =>
    intro b
    simp only [List.foldl_cons, speedStream, occStream, List.map_cons]
    exact ih _

theorem bufAfter_occ_bounds (hist : List (ℚ × OccProbe × Option ℚ)) :
    ∀ y ∈ (bufAfter hist).occ, 0 ≤ y ∧ y ≤ 1 := by
  intro y hy
  rw [bufAfter_eq] at hy
  have hy2 : y ∈ winFold (occStream hist) := hy
  rw [winFold_eq_drop] at hy2
  have hy' : y ∈ occStream hist := List.drop_subset _ _ hy2
  rw [occStream] at hy'
  obtain ⟨h, _, rfl⟩ := List.mem_map.mp hy'
  exact occSample_bounds _

/-- Claim C5: every occupancy sample pushed into a rolling window is the
clamp of the raw observation to `[0,1]` (with NaN, non-numeric and failed
probes mapped to 0), and consequently the smoothed occupancy returned by
`expected_speed` always lies in `[0,1]`, for every probe history. -/
theorem C5_smoothed_occupancy_bounds :
    (∀ p, 0 ≤ occSample p ∧ occSample p ≤ 1) ∧
    occSample OccProbe.nanv = 0 ∧ occSample OccProbe.nonNumeric = 0 ∧
    occSample OccProbe.failed = 0 ∧
    (∀ q, occSample (OccProbe.val q) = max 0 (min 1 q)) ∧
    ∀ (hist : List (ℚ × OccProbe × Option ℚ)) (sl : ℚ) (oP : OccProbe)
      (mP : Option ℚ),
      0 ≤ ((fnt_expected_speed sl oP mP (bufAfter hist)).1).2 ∧
      ((fnt_expected_speed sl oP mP (bufAfter hist)).1).2 ≤ 1 := by
  refine ⟨occSample_bounds, rfl, rfl, rfl, fun q => rfl, ?_⟩
  intro hist sl oP mP
  have hkey : ((fnt_expected_speed sl oP mP (bufAfter hist)).1).2 =
      meanOf (pushWin (bufAfter hist).occ (occSample oP)) := rfl
  rw [hkey]
  apply meanOf_bounds _ (pushWin_ne_nil _ _)
  intro y hy
  have := pushWin_sub _ _ hy
  rcases List.mem_append.mp this with h | h
  · exact bufAfter_occ_bounds hist y h
  · simp at h
    subst h
    exact occSample_bounds _

/-- Claim C6: per-segment windows never exceed `N = 10` entries; a push at
capacity evicts the oldest entry; after any history each window holds
exactly the most recent `N` samples; the smoothed occupancy returned by
`expected_speed` is the arithmetic mean of the post-push occupancy window;
and the smoothed speed it uses is the arithmetic mean of the post-push
speed window: the returned speed equals that mean in the flowing branch
and is otherwise the free-flow or congestion fallback selected by
comparing those two window means to the thresholds (FinalnoTLS.py
229-237). -/
theorem C6_rolling_window :
    (∀ hist, ((bufAfter hist).speed.length ≤ WINDOW_N ∧
              (bufAfter hist).occ.length ≤ WINDOW_N)) ∧
    (∀ (w : List ℚ) (x : ℚ), w.length = WINDOW_N → pushWin w x = w.drop 1 ++ [x]) ∧
    (∀ hist, bufAfter hist =
      ⟨(speedStream hist).drop ((speedStream hist).length - WINDOW_N),
       (occStream hist).drop ((occStream hist).length - WINDOW_N)⟩) ∧
    (∀ (sl : ℚ) (oP : OccProbe) (mP : Option ℚ) (b : EdgeBuf),
      ((fnt_expected_speed sl oP mP b).1).2 =
        meanOf ((fnt_expected_speed sl oP mP b).2).occ ∧
      (fnt_expected_speed sl oP mP b).2 =
        ⟨pushWin b.speed (speedSample sl mP), pushWin b.occ (occSample oP)⟩) ∧
    (∀ (sl : ℚ) (oP : OccProbe) (mP : Option ℚ) (b : EdgeBuf),
      ((fnt_expected_speed sl oP mP b).1).1 =
        (if meanOf ((fnt_expected_speed sl oP mP b).2).occ <
            OCCUPANCY_FREE_THRESH then max sl 0.1
         else if SMOOTHING_MIN_SPEED <
            meanOf ((fnt_expected_speed sl oP mP b).2).speed then
           meanOf ((fnt_expected_speed sl oP mP b).2).speed
         else max (sl * MIN_SPEED_FRACTION) 0.1)) := by
  refine ⟨?_, ?_, ?_, ?_, ?_⟩
  · intro hist
    rw [bufAfter_eq]
    exact ⟨winFold_length _, winFold_length _⟩
  · intro w x hw
    have hw' : w.length = 10 := by simpa [WINDOW_N] using hw
    unfold pushWin
    have hlen : WINDOW_N < (w ++ [x]).length := by
      simp only [List.length_append, List.length_cons, List.length_nil, hw']
      unfold WINDOW_N
      omega
    rw [if_pos hlen]
    have h1 : (w ++ [x]).length - WINDOW_N = 1 := by
      simp only [List.length_append, List.length_cons, List.length_nil, hw']
      unfold WINDOW_N
      omega
    rw [h1, List.drop_append_of_le_length (by omega : 1 ≤ w.length)]
  · intro hist
    rw [bufAfter_eq, winFold_eq_drop, winFold_eq_drop]
  · intro sl oP mP b
    exact ⟨rfl, rfl⟩
  · intro sl oP mP b
    rfl

/-- Witness for C6: a window at capacity 10 evicts its oldest entry on the
next push. -/
theorem C6_rolling_window_witness :
    pushWin [(0 : ℚ), 1, 2, 3, 4, 5, 6, 7, 8, 9] 42 =
      [(1 : ℚ), 2, 3, 4, 5, 6, 7, 8, 9, 42] := by
  have h := C6_rolling_window.2.1 [(0 : ℚ), 1, 2, 3, 4, 5, 6, 7, 8, 9] 42
    (by simp [WINDOW_N])
  simpa using h

/-! ## Signal phase oracle (Final2.py, lines 122-173) -/

/-- Final2.py line 31: lookahead horizon in seconds. -/
def TLS_LOOKAHEAD_LIMIT : ℚ := 300

/-- A cached signal program (Final2.py `cache_tls_definitions`): ordered
`(state-string, duration)` phases.  The cached `cycle` field is the sum of
the durations, recomputed here by `cycleOf`. -/
structure TLSDef where
  phases : List (List Char × ℚ)
deriving DecidableEq

def cycleOf (d : TLSDef) : ℚ := (d.phases.map Prod.snd).sum

/-- `_is_green(state, idx)` (Final2.py line 149):
`idx < len(state) and state[idx] in ("G", "g")`. -/
def isGreenAt (st : List Char) (idx : ℕ) : Bool :=
  match st.get? idx with
  | some c => c = 'G' || c = 'g'
  | none => false

/-- The `while scanned < TLS_LOOKAHEAD_LIMIT` loop of `tls_delay_seconds`
(Final2.py 162-166), with an explicit fuel bound on the number of loop
iterations.  When the fuel runs out the result is 0, which coincides with
the loop's own answer whenever no green phase exists; all theorems about
the green-found case carry a fuel-sufficiency hypothesis. -/
def tlsScan (phases : List (List Char × ℚ)) (sig : ℕ) :
    ℕ → ℚ → ℕ → ℚ → ℚ
  | 0, _, _, _ => 0
  | fuel + 1, delay, scan, scanned =>
    if scanned < TLS_LOOKAHEAD_LIMIT then
      match phases.get? scan with
      | none => 0
      | some p =>
        if isGreenAt p.1 sig then max 0 delay
        else tlsScan phases sig fuel (delay + p.2) ((scan + 1) % phases.length)
          (scanned + p.2)
    else 0

/-- `tls_delay_seconds(tls_id, sig_index, tls_defs)` (Final2.py 151-166).
`defs` is `tls_defs.get(tls_id)`; `live` is the `(getPhase, duration -
elapsed)` pair, `none` when the live query raised (the `except` branch
returns 0).  The `phases[cur]` read sits outside the `try` in the source
and assumes `cur < len(phases)`; out-of-range is mapped to 0 here and all
theorems assume a valid current phase index. -/
def tls_delay_seconds (defs : Option TLSDef) (live : Option (ℕ × ℚ))
    (sig : ℕ) (fuel : ℕ) : ℚ :=
  match defs with
  | none => 0
  | some d =>
    if cycleOf d ≤ 0 then 0
    else
      match live with
      | none => 0
      | some cr =>
        match d.phases.get? cr.1 with
        | none => 0
        | some p =>
          if isGreenAt p.1 sig then 0
          else tlsScan d.phases sig fuel (max 0 cr.2)
            ((cr.1 + 1) % d.phases.length) 0

/-- The phase reached `k` steps into the cyclic scan (index `k % len`). -/
def phaseAt (phases : List (List Char × ℚ)) (k : ℕ) : List Char × ℚ :=
  (phases.get? (k % phases.length)).getD ([], 0)

/-- Sum of the durations of phases `k+1, …, k+j` of the cyclic scan. -/
def sumDurFrom : List (List Char × ℚ) → ℕ → ℕ → ℚ
  | _, _, 0 => 0
  | phases, k, j + 1 => (phaseAt phases (k + 1)).2 + sumDurFrom phases (k + 1) j

theorem phaseAt_get (phases : List (List Char × ℚ)) (k : ℕ)
    (hne : phases ≠ []) : phases.get? (k % phases.length) = some (phaseAt phases k) := by
  have hpos : 0 < phases.length := List.length_pos.mpr hne
  have hlt : k % phases.length < phases.length := Nat.mod_lt _ hpos
  rw [phaseAt]
  rcases h : phases.get? (k % phases.length) with _ | p
  · exact absurd (List.get?_eq_none.mp h) (by omega)
  · rfl

theorem phaseAt_mem (phases : List (List Char × ℚ)) (k : ℕ)
    (hne : phases ≠ []) : phaseAt phases k ∈ phases :=
  List.get?_mem (phaseAt_get phases k hne)

theorem sumDurFrom_nonneg (phases : List (List Char × ℚ))
    (hne : phases ≠ []) (hdur : ∀ p ∈ phases, 0 ≤ p.2) :
    ∀ (j k : ℕ), 0 ≤ sumDurFrom phases k j := by
  intro j
  induction j with
  | zero => intro k; exact le_refl 0
  | succ j ih =>
    intro k
    have h1 : 0 ≤ (phaseAt phases (k + 1)).2 := hdur _ (phaseAt_mem phases (k + 1) hne)
    have h2 := ih (k + 1)
    rw [sumDurFrom]
    linarith

/-- If no phase of the program is green at `sig`, the scan loop returns 0
(horizon exhausted), for every fuel and every starting state. -/
theorem tlsScan_no_green (phases : List (List Char × ℚ)) (sig : ℕ)
    (hng : ∀ p ∈ phases, isGreenAt p.1 sig = false) :
    ∀ (fuel : ℕ) (delay : ℚ) (scan : ℕ) (scanned : ℚ),
      tlsScan phases sig fuel delay scan scanned = 0 := by
  intro fuel
  induction fuel with
  | zero => intro delay scan scanned; rfl
  | succ f ih =>
    intro delay scan scanned
    rw [tlsScan]
    by_cases hs : scanned < TLS_LOOKAHEAD_LIMIT
    · rw [if_pos hs]
      rcases h : phases.get? scan with _ | p
      · rfl
      · have hmem : p ∈ phases := List.get?_mem h
        simp only [hng p hmem, Bool.false_eq_true, if_false]
        exact ih _ _ _
    · rw [if_neg hs]

/-- The scan loop stops at the first green phase and returns the
accumulated delay: if phases `k+1, …, k+j-1` are not green at `sig`,
phase `k+j` is, and the durations scanned stay below the horizon, the
loop starting at scan position `(k+1) % len` returns
`delay + sumDurFrom k (j-1)`. -/
theorem tlsScan_finds_green (phases : List (List Char × ℚ)) (sig : ℕ)
    (hne : phases ≠ []) (hdur : ∀ p ∈ phases, 0 ≤ p.2) :
    ∀ (j k fuel : ℕ) (delay scanned : ℚ),
      1 ≤ j → j ≤ fuel → 0 ≤ delay → 0 ≤ scanned →
      (∀ i, 1 ≤ i → i < j → isGreenAt (phaseAt phases (k + i)).1 sig = false) →
      isGreenAt (phaseAt phases (k + j)).1 sig = true →
      scanned + sumDurFrom phases k (j - 1) < TLS_LOOKAHEAD_LIMIT →
      tlsScan phases sig fuel delay ((k + 1) % phases.length) scanned =
        delay + sumDurFrom phases k (j - 1) := by
  intro j
  induction j with
  | zero => intro k fuel delay scanned h1; omega
  | succ j ih =>
    intro k fuel delay scanned _ hfuel hdel hscan hng hgreen hbound
    rcases fuel with _ | f
    · omega
    rcases Nat.eq_zero_or_pos j with hj0 | hjpos
    · subst hj0
      rw [tlsScan]
      have hs : scanned < TLS_LOOKAHEAD_LIMIT := by
        simpa [sumDurFrom] using hbound
      rw [if_pos hs, phaseAt_get phases (k + 1) hne]
      have hg1 : isGreenAt (phaseAt phases (k + 1)).1 sig = true := by
        simpa using hgreen
      simp only [hg1, if_true]
      rw [max_eq_right hdel]
      simp [sumDurFrom]
    · rw [tlsScan]
      have hsum0 : 0 ≤ sumDurFrom phases k (j + 1 - 1) :=
        sumDurFrom_nonneg phases hne hdur _ _
      have hs : scanned < TLS_LOOKAHEAD_LIMIT := by linarith
      rw [if_pos hs, phaseAt_get phases (k + 1) hne]
      have hng1 : isGreenAt (phaseAt phases (k + 1)).1 sig = false :=
        hng 1 (le_refl 1) (by omega)
      simp only [hng1, Bool.false_eq_true, if_false]
      have hmod : ((k + 1) % phases.length + 1) % phases.length =
          (k + 2) % phases.length := by
        rw [Nat.mod_add_mod]
      rw [hmod]
      have hd1 : 0 ≤ (phaseAt phases (k + 1)).2 :=
        hdur _ (phaseAt_mem phases (k + 1) hne)
      have hsplit : sumDurFrom phases k (j + 1 - 1) =
          (phaseAt phases (k + 1)).2 + sumDurFrom phases (k + 1) (j - 1) := by
        have hj : j + 1 - 1 = (j - 1) + 1 := by omega
        rw [hj, sumDurFrom]
      have hih := ih (k + 1) f (delay + (phaseAt phases (k + 1)).2)
        (scanned + (phaseAt phases (k + 1)).2) hjpos (by omega)
        (by linarith) (by linarith)
        (fun i hi hij => by
          have := hng (i + 1) (by omega) (by omega)
          simpa [Nat.add_assoc, Nat.add_comm 1 i] using this)
        (by
          have : k + 1 + j = k + (j + 1) := by omega
          rw [this]
          exact hgreen)
        (by rw [hsplit] at hbound; linarith)
      have hk2 : k + 1 + 1 = k + 2 := by omega
      rw [hk2] at hih
      rw [hih, hsplit]
      ring

/-- If every phase scanned before the horizon is exhausted is non-green,
the loop returns 0: phases `k+1, …, k+j` are not green at `sig` and their
durations take `scanned` up to `TLS_LOOKAHEAD_LIMIT`, so the `while
scanned < TLS_LOOKAHEAD_LIMIT` guard fails before any green is seen
(Final2.py 162-166, the `return 0.0` after the loop). -/
theorem tlsScan_horizon (phases : List (List Char × ℚ)) (sig : ℕ)
    (hne : phases ≠ []) :
    ∀ (j k fuel : ℕ) (delay scanned : ℚ),
      j ≤ fuel →
      (∀ i, 1 ≤ i → i ≤ j → isGreenAt (phaseAt phases (k + i)).1 sig = false) →
      TLS_LOOKAHEAD_LIMIT ≤ scanned + sumDurFrom phases k j →
      tlsScan phases sig fuel delay ((k + 1) % phases.length) scanned = 0 := by
  intro j
  induction j with
  | zero =>
    intro k fuel delay scanned _ _ hbound
    have hs : ¬ scanned < TLS_LOOKAHEAD_LIMIT := by
      simp only [sumDurFrom] at hbound
      linarith
    rcases fuel with _ | f
    · rfl
    · rw [tlsScan, if_neg hs]
  | succ j ih =>
    intro k fuel delay scanned hjf hng hbound
    rcases fuel with _ | f
    · omega
    rw [tlsScan]
    by_cases hs : scanned < TLS_LOOKAHEAD_LIMIT
    · rw [if_pos hs, phaseAt_get phases (k + 1) hne]
      have hng1 : isGreenAt (phaseAt phases (k + 1)).1 sig = false :=
        hng 1 (le_refl 1) (by omega)
      simp only [hng1, Bool.false_eq_true, if_false]
      have hmod : ((k + 1) % phases.length + 1) % phases.length =
          (k + 2) % phases.length := by
        rw [Nat.mod_add_mod]
      rw [hmod]
      have hsplit : sumDurFrom phases k (j + 1) =
          (phaseAt phases (k + 1)).2 + sumDurFrom phases (k + 1) j := by
        rw [sumDurFrom]
      have hih := ih (k + 1) f (delay + (phaseAt phases (k + 1)).2)
        (scanned + (phaseAt phases (k + 1)).2) (by omega)
        (fun i hi hij => by
          have := hng (i + 1) (by omega) (by omega)
          simpa [Nat.add_assoc, Nat.add_comm 1 i] using this)
        (by rw [hsplit] at hbound; linarith)
      have hk2 : k + 1 + 1 = k + 2 := by omega
      rw [hk2] at hih
      exact hih
    · rw [if_neg hs]

/-- Claim C4: for a controller with cached phases and a valid current
phase, `tls_delay_seconds` returns 0 when the current phase is green at
the signal index; returns 0 when no phase of the program is green at the
index; returns 0 when the cyclic scan reaches the 300 s lookahead horizon
before encountering a green phase (unknown delay treated as 0, not
infinity); and otherwise returns the remaining time of the current phase
plus the durations of the subsequent phases, scanned cyclically up to the
first green phase, which is reached within the horizon. -/
theorem C4_tls_delay_spec (d : TLSDef) (cur : ℕ) (remain : ℚ) (sig : ℕ)
    (fuel : ℕ) (st : List Char) (dur : ℚ)
    (hcur : d.phases.get? cur = some (st, dur)) :
    (isGreenAt st sig = true →
      tls_delay_seconds (some d) (some (cur, remain)) sig fuel = 0) ∧
    ((∀ p ∈ d.phases, isGreenAt p.1 sig = false) →
      tls_delay_seconds (some d) (some (cur, remain)) sig fuel = 0) ∧
    (∀ j, j ≤ fuel →
      isGreenAt st sig = false →
      (∀ i, 1 ≤ i → i ≤ j → isGreenAt (phaseAt d.phases (cur + i)).1 sig = false) →
      TLS_LOOKAHEAD_LIMIT ≤ sumDurFrom d.phases cur j →
      tls_delay_seconds (some d) (some (cur, remain)) sig fuel = 0) ∧
    (∀ j, 1 ≤ j → j ≤ fuel → 0 < cycleOf d →
      (∀ p ∈ d.phases, 0 ≤ p.2) →
      isGreenAt st sig = false →
      (∀ i, 1 ≤ i → i < j → isGreenAt (phaseAt d.phases (cur + i)).1 sig = false) →
      isGreenAt (phaseAt d.phases (cur + j)).1 sig = true →
      sumDurFrom d.phases cur (j - 1) < TLS_LOOKAHEAD_LIMIT →
      tls_delay_seconds (some d) (some (cur, remain)) sig fuel =
        max 0 remain + sumDurFrom d.phases cur (j - 1)) := by
  have hne : d.phases ≠ [] := by
    intro hnil
    rw [hnil] at hcur
    simp at hcur
  refine ⟨?_, ?_, ?_, ?_⟩
  · intro hgr
    rw [tls_delay_seconds]
    by_cases hc : cycleOf d ≤ 0
    · rw [if_pos hc]
    · rw [if_neg hc]
      simp only [hcur, hgr, if_true]
  · intro hng
    rw [tls_delay_seconds]
    by_cases hc : cycleOf d ≤ 0
    · rw [if_pos hc]
    · rw [if_neg hc]
      have hmem : (st, dur) ∈ d.phases := List.get?_mem hcur
      have hfalse : isGreenAt st sig = false := hng (st, dur) hmem
      simp only [hcur, hfalse, Bool.false_eq_true, if_false]
      exact tlsScan_no_green d.phases sig hng fuel _ _ _
  · intro j hjf hnotgr hng hbound
    rw [tls_delay_seconds]
    by_cases hc : cycleOf d ≤ 0
    · rw [if_pos hc]
    · rw [if_neg hc]
      simp only [hcur, hnotgr, Bool.false_eq_true, if_false]
      exact tlsScan_horizon d.phases sig hne j cur fuel (max 0 remain) 0 hjf hng
        (by simpa using hbound)
  · intro j hj1 hjf hc hdur hnotgr hng hgreen hbound
    rw [tls_delay_seconds]
    rw [if_neg (not_le.mpr hc)]
    simp only [hcur, hnotgr, Bool.false_eq_true, if_false]
    exact tlsScan_finds_green d.phases sig hne hdur j cur fuel (max 0 remain) 0
      hj1 hjf (le_max_left 0 remain) (le_refl 0) hng hgreen (by simpa using hbound)

/-- A concrete three-phase program used to instantiate C4. -/
def tlsEx : TLSDef := ⟨[(['r'], 5), (['G'], 5), (['y'], 2)]⟩

/-- A program whose only green phase lies beyond the 300 s horizon: the
scan crosses the horizon inside the 350 s yellow phase and gives up. -/
def tlsEx2 : TLSDef := ⟨[(['r'], 100), (['y'], 350), (['G'], 10)]⟩

/-- Witness for C4: with phases red(5s)/green(5s)/yellow(2s), current phase
0 (red) and 2 s remaining, the delay for signal index 0 is exactly the
2 s remaining red time; and with phases red(100s)/yellow(350s)/green(10s)
the green lies beyond the 300 s horizon, so the delay is 0. -/
theorem C4_tls_delay_spec_witness :
    tls_delay_seconds (some tlsEx) (some (0, 2)) 0 10 = 2 ∧
    tls_delay_seconds (some tlsEx2) (some (0, 7)) 0 10 = 0 := by
  have h := (C4_tls_delay_spec tlsEx 0 2 0 10 ['r'] 5 rfl).2.2.2 1
    (le_refl 1) (by omega) (by norm_num [cycleOf, tlsEx]) (by decide)
    (by decide)
    (fun i hi hlt => absurd (lt_of_le_of_lt hi hlt) (lt_irrefl 1))
    (by decide) (by norm_num [sumDurFrom, TLS_LOOKAHEAD_LIMIT])
  have h2 := (C4_tls_delay_spec tlsEx2 0 7 0 10 ['r'] 100 rfl).2.2.1 1
    (by omega) (by decide)
    (by
      intro i hi1 hi2
      have hi : i = 1 := by omega
      subst hi
      decide)
    (by norm_num [sumDurFrom, phaseAt, tlsEx2, TLS_LOOKAHEAD_LIMIT])
  refine ⟨?_, h2⟩
  simpa [sumDurFrom] using h

/-! ## Cost model (Final2.py `movement_weight`, lines 205-237) -/

/-- Final2.py line 25. -/
def F2_DENSITY_ALPHA : ℚ := 2
/-- Final2.py line 26. -/
def F2_MIN_SPEED_FRACTION : ℚ := 0.3
/-- Final2.py line 27. -/
def F2_OCCUPANCY_FREE_THRESH : ℚ := 0.05
/-- Final2.py line 28. -/
def F2_SMOOTHING_MIN_SPEED : ℚ := 1.5
/-- Final2.py line 32. -/
def GREEN_BIAS : ℚ := 1

/-- `occ is not None and occ < OCCUPANCY_FREE_THRESH` (Final2.py 223). -/
def occFree (occ : Option ℚ) : Bool :=
  match occ with
  | some o => decide (o < F2_OCCUPANCY_FREE_THRESH)
  | none => false

/-- `mean_speed is not None and mean_speed > SMOOTHING_MIN_SPEED`
(Final2.py 225). -/
def msUsable (ms : Option ℚ) : Bool :=
  match ms with
  | some m => decide (F2_SMOOTHING_MIN_SPEED < m)
  | none => false

/-- The expected-speed selection of `movement_weight` (Final2.py 222-228).
In the `msUsable` branch `ms` is necessarily `some`, so `ms.getD 0` is
the probed mean speed. -/
def f2_use_speed (speed_limit : ℚ) (occ ms : Option ℚ) : ℚ :=
  if occFree occ then max speed_limit 0.1
  else if msUsable ms then ms.getD 0
  else max (speed_limit * F2_MIN_SPEED_FRACTION) 0.1

/-- `movement_weight(in_edge, out_edge, G_edge, tls_defs, tls_linkmap)`
(Final2.py 206-237).  `length` and `speed_limit` are the node attributes
of `out_edge` (with their fallbacks already applied by the caller),
`occ`/`mean_speed` are the live probes (`None` on failure), and `tls_del`
is the value of `expected_tls_delay_for_movement`, i.e. a
`tls_delay_seconds` result (or 0 for an uncontrolled movement).  Note the
source returns the sum directly — there is no clamp to ≥ 0. -/
def movement_weight (length speed_limit : ℚ) (occ mean_speed : Option ℚ)
    (tls_del : ℚ) : ℚ :=
  let use_speed := f2_use_speed speed_limit occ mean_speed
  let base_tt := length / max use_speed 0.1
  let dens_mult := 1 + F2_DENSITY_ALPHA * (occ.getD 0)
  let green_bonus := if 0 < tls_del ∧ tls_del < 10 then -(GREEN_BIAS * 0.5) else 0
  base_tt * dens_mult + tls_del + green_bonus

/-- A two-phase program (30 s red, 30 s green) with 0.3 s of red
remaining, as a realistic source of the signal delay used below. -/
def tlsExC1 : TLSDef := ⟨[(['r'], 30), (['G'], 30)]⟩

/-- Claim C1 is false of the code: `movement_weight` applies no clamp, and
the green-bias discount can push the total weight below 0.  Concretely: a
free segment (occupancy 0) of length 1 m with speed limit 13.9 m/s gives
`base_tt = 1/13.9`, `dens_mult = 1`; the signal delay `0.3` (returned by
`tls_delay_seconds` for `tlsExC1` with 0.3 s of red left) lies in `(0,10)`,
so the green bonus `-0.5` applies and the weight is
`1/13.9 + 0.3 - 0.5 = -89/695 < 0`. -/
theorem C1_weight_negative :
    tls_delay_seconds (some tlsExC1) (some (0, 3/10)) 0 20 = 3/10 ∧
    movement_weight 1 (139/10) (some 0) (some 5) (3/10) = -89/695 ∧
    movement_weight 1 (139/10) (some 0) (some 5) (3/10) < 0 := by
  refine ⟨?_, ?_, ?_⟩
  · norm_num [tls_delay_seconds, tlsExC1, cycleOf, tlsScan, isGreenAt,
      TLS_LOOKAHEAD_LIMIT]
    decide
  · norm_num [movement_weight, f2_use_speed, occFree, msUsable,
      F2_OCCUPANCY_FREE_THRESH, F2_DENSITY_ALPHA, GREEN_BIAS]
  · norm_num [movement_weight, f2_use_speed, occFree, msUsable,
      F2_OCCUPANCY_FREE_THRESH, F2_DENSITY_ALPHA, GREEN_BIAS]

/-! ## Reroute controller (Final2.py 321-410; FinalnoTLS.py 354-417) -/

/-- Final2.py line 34 / FinalnoTLS.py line 32. -/
def INVALID_THRESHOLD : ℕ := 2
/-- Final2.py line 35. -/
def COOLDOWN_SECONDS : ℚ := 45
/-- Final2.py line 23. -/
def REROUTE_PERIOD_F2 : ℚ := 10
/-- Final2.py line 24. -/
def NEAR_JUNCTION_SKIP_DIST_F2 : ℚ := 120
/-- FinalnoTLS.py line 25 — defined there but never read by the loop. -/
def REROUTE_PERIOD_FNT : ℚ := 15
/-- FinalnoTLS.py line 26. -/
def NEAR_JUNCTION_SKIP_DIST_FNT : ℚ := 0

def emptyS : String := ""

/-- `edge_id.startswith(":")`: pseudo/internal segment test. -/
def isInternal (s : String) : Bool := s.data.head? = some ':'

/-- `is_uturn_pair(a, b)` (Final2.py 110-111 / FinalnoTLS.py 158-159). -/
def is_uturn_pair (a b : String) : Bool :=
  decide (a = "-" ++ b) || decide (b = "-" ++ a)

/-- `all(has_edge_connection_any_lane(x, y) for x, y in zip(r, r[1:]))`
(Final2.py 393), with the lane-level query abstracted as `conn`. -/
def connAll (conn : String → String → Bool) : List String → Bool
  | [] => true
  | [_] => true
  | a :: b :: rest => conn a b && connAll conn (b :: rest)

/-- The six places in Final2.py's per-agent reroute block that produce an
INVALID outcome: current/destination segment missing from the class graph
(353), planner exception (363-366), first hop not reachable from the
current lane (377), U-turn first transition (385), a consecutive pair
without a lane-level connection (393), and a rejected `setRoute` (405). -/
inductive InvalidKind
  | graphMiss
  | plannerFail
  | valFirstHop
  | valUturn
  | valConn
  | commitReject
deriving DecidableEq

/-- Per-agent reroute state of Final2.py: `last_reroute[vid]`,
`invalid_count[vid]`, `cooldown_until[vid]`. -/
structure F2State where
  last_reroute : ℚ
  invalid_count : ℕ
  cooldown_until : ℚ
deriving DecidableEq

/-- In which INVALID branches does Final2.py issue the fallback
`rerouteTraveltime` call *unconditionally*?  In the graph-miss (357) and
planner-failure (369) branches the call sits outside the threshold `if`;
in the three validation branches (381, 389, 397) and the commit-rejection
branch (409) it sits inside it. -/
def fallbackUnconditional : InvalidKind → Bool
  | .graphMiss => true
  | .plannerFail => true
  | _ => false

/-- One INVALID outcome in Final2.py: increment `invalid_count`; if it
reached `INVALID_THRESHOLD`, set the cooldown, reset the counter and (in
every branch) issue the fallback; below the threshold the fallback is
issued only in the branches where the call is unconditional.  Returns the
new state and whether the fallback command was issued. -/
def handleInvalid (k : InvalidKind) (s : F2State) (now : ℚ) : F2State × Bool :=
  let c := s.invalid_count + 1
  if INVALID_THRESHOLD ≤ c then
    (⟨s.last_reroute, 0, now + COOLDOWN_SECONDS⟩, true)
  else
    (⟨s.last_reroute, c, s.cooldown_until⟩, fallbackUnconditional k)

/-- The per-agent, per-tick inputs of the reroute block that come from the
simulation collaborator: lane geometry, current edge, active route, graph
membership of the endpoints, the planner's answer (`none` = exception),
the set of edges reachable from the current lane, the lane-level
connection oracle, and whether the route commit succeeds. -/
structure AgentEnv where
  laneRemain : Option ℚ
  curEdge : String
  route : List String
  hasCur : Bool
  hasDest : Bool
  planner : Option (List String)
  allowedFromLane : List String
  conn : String → String → Bool
  commitOk : Bool

/-- Observable outcome of one per-agent reroute evaluation. -/
structure StepRes where
  plannerCalled : Bool
  committed : Bool
  fallback : Bool
  state : F2State
deriving DecidableEq

def f2_skip (s : F2State) : StepRes := ⟨false, false, false, s⟩

def f2_invalid (k : InvalidKind) (pc : Bool) (s : F2State) (t : ℚ) : StepRes :=
  let r := handleInvalid k s t
  ⟨pc, false, r.2, r.1⟩

/-- The Final2.py per-agent reroute block (lines 323-410), in source
order: cooldown gate, reroute-period gate, near-junction skip, pseudo or
missing current/destination segment, graph membership, planner, the three
validations, commit. -/
def f2_step (e : AgentEnv) (t : ℚ) (s : F2State) : StepRes :=
  if t < s.cooldown_until then f2_skip s
  else if t - s.last_reroute < REROUTE_PERIOD_F2 then f2_skip s
  else if (match e.laneRemain with
           | some r => decide (r < NEAR_JUNCTION_SKIP_DIST_F2)
           | none => false) then f2_skip s
  else if e.curEdge = emptyS ∨ isInternal e.curEdge then f2_skip s
  else
    match e.route.getLast? with
    | none => f2_skip s
    | some dest =>
      if dest = emptyS ∨ isInternal dest then f2_skip s
      else if ¬(e.hasCur = true ∧ e.hasDest = true) then
        f2_invalid .graphMiss false s t
      else
        match e.planner with
        | none => f2_invalid .plannerFail true s t
        | some new_route =>
          if 2 ≤ new_route.length ∧ e.allowedFromLane ≠ [] ∧
              ¬(e.allowedFromLane.contains ((new_route.get? 1).getD emptyS)) then
            f2_invalid .valFirstHop true s t
          else if 2 ≤ new_route.length ∧
              is_uturn_pair ((new_route.get? 0).getD emptyS)
                ((new_route.get? 1).getD emptyS) then
            f2_invalid .valUturn true s t
          else if ¬(connAll e.conn new_route = true) then
            f2_invalid .valConn true s t
          else if e.commitOk then ⟨true, true, false, ⟨t, 0, s.cooldown_until⟩⟩
          else f2_invalid .commitReject true s t

/-- Per-agent reroute state of FinalnoTLS.py: `last_reroute[vid]`,
`invalid_count[vid]` (there is no cooldown in that variant). -/
structure FntState where
  last_reroute : ℚ
  invalid_count : ℕ
deriving DecidableEq

structure FntRes where
  plannerCalled : Bool
  committed : Bool
  fallback : Bool
  state : FntState
deriving DecidableEq

def fnt_skip (s : FntState) : FntRes := ⟨false, false, false, s⟩

/-- FinalnoTLS.py 383-385 / 395-397: increment `invalid_count` and reset
it to 0 at the threshold (no cooldown is set in this variant). -/
def fnt_invalid_reset (s : FntState) : FntState :=
  let c := s.invalid_count + 1
  if INVALID_THRESHOLD ≤ c then ⟨s.last_reroute, 0⟩ else ⟨s.last_reroute, c⟩

/-- The FinalnoTLS.py per-agent reroute block (lines 354-417).  Note:
this variant has **no** cooldown gate and **no** `(now − last_reroute) <
REROUTE_PERIOD` gate — `REROUTE_PERIOD` (line 25) is never read and
`last_reroute` (written at 414) is never read.  Validation failures and
commit rejections are plain `continue`s (408-410, 416-417): no counter
update and no fallback. -/
def fnt_step (e : AgentEnv) (t : ℚ) (s : FntState) : FntRes :=
  if (match e.laneRemain with
      | some r => decide (r < NEAR_JUNCTION_SKIP_DIST_FNT)
      | none => false) then fnt_skip s
  else if e.curEdge = emptyS ∨ isInternal e.curEdge then fnt_skip s
  else
    match e.route.getLast? with
    | none => fnt_skip s
    | some dest =>
      if dest = emptyS ∨ isInternal dest then fnt_skip s
      else if ¬(e.hasCur = true ∧ e.hasDest = true) then
        ⟨false, false, true, fnt_invalid_reset s⟩
      else
        match e.planner with
        | none => ⟨true, false, true, fnt_invalid_reset s⟩
        | some new_route =>
          if 2 ≤ new_route.length ∧ e.allowedFromLane ≠ [] ∧
              ¬(e.allowedFromLane.contains ((new_route.get? 1).getD emptyS)) then
            ⟨true, false, false, s⟩
          else if 2 ≤ new_route.length ∧
              is_uturn_pair ((new_route.get? 0).getD emptyS)
                ((new_route.get? 1).getD emptyS) then
            ⟨true, false, false, s⟩
          else if e.commitOk then ⟨true, true, false, ⟨t, 0⟩⟩
          else ⟨true, false, false, s⟩

/-- A per-agent environment in which the planner's candidate route fails
the first-hop validation (its second edge is not reachable from the
current lane). -/
def envC2 : AgentEnv :=
  { laneRemain := none
    curEdge := "E1"
    route := ["E1", "E9"]
    hasCur := true
    hasDest := true
    planner := some ["E1", "E2", "E9"]
    allowedFromLane := ["E3"]
    conn := fun _ _ => true
    commitOk := true }

/-- Counterexample to claim C2: an INVALID outcome (first-hop validation
failure) on an agent with `invalid_count = 0` increments the counter to 1
but issues **no** fallback recompute command — in Final2.py the
`rerouteTraveltime` call of the validation branches sits inside the
threshold `if`, so the first of two INVALIDs gets no fallback there. -/
theorem C2_fallback_missing_cex :
    (f2_step envC2 100 ⟨0, 0, 0⟩).state.invalid_count = 1 ∧
    (f2_step envC2 100 ⟨0, 0, 0⟩).fallback = false := by
  have hstep : f2_step envC2 100 ⟨0, 0, 0⟩ =
      f2_invalid .valFirstHop true ⟨0, 0, 0⟩ 100 := by
    rw [f2_step]
    rw [if_neg (by norm_num : ¬((100 : ℚ) < (0 : ℚ)))]
    rw [if_neg (by norm_num [REROUTE_PERIOD_F2] : ¬((100 : ℚ) - 0 < REROUTE_PERIOD_F2))]
    rw [if_neg (by decide)]
    rw [if_neg (by decide)]
    simp only [show envC2.route.getLast? = some "E9" from rfl]
    rw [if_neg (by decide)]
    rw [if_neg (by decide)]
    simp only [show envC2.planner = some ["E1", "E2", "E9"] from rfl]
    rw [if_pos (by decide)]
  rw [hstep]
  exact ⟨by decide, by decide⟩

/-- Claim C2, amended to what Final2.py does: every INVALID outcome
increments `invalid_count`; when the incremented counter reaches
`INVALID_THRESHOLD` (2), `cooldown_until` is set to
`now + COOLDOWN_SECONDS`, the counter is reset to 0 and the fallback
command is issued, in the same step; below the threshold the fallback
command is issued only in the graph-membership-miss and planner-failure
branches, not in the validation or commit-rejection branches. -/
theorem C2_invalid_escalation (k : InvalidKind) (s : F2State) (now : ℚ) :
    (s.invalid_count + 1 < INVALID_THRESHOLD →
      (handleInvalid k s now).1.invalid_count = s.invalid_count + 1 ∧
      (handleInvalid k s now).1.cooldown_until = s.cooldown_until ∧
      (handleInvalid k s now).2 = fallbackUnconditional k) ∧
    (INVALID_THRESHOLD ≤ s.invalid_count + 1 →
      (handleInvalid k s now).1.invalid_count = 0 ∧
      (handleInvalid k s now).1.cooldown_until = now + COOLDOWN_SECONDS ∧
      (handleInvalid k s now).2 = true) ∧
    ((handleInvalid k s now).2 = true ↔
      (fallbackUnconditional k = true ∨ INVALID_THRESHOLD ≤ s.invalid_count + 1)) := by
  rw [handleInvalid]
  by_cases h : INVALID_THRESHOLD ≤ s.invalid_count + 1
  · rw [if_pos h]
    refine ⟨fun hlt => absurd h (not_le.mpr hlt), fun _ => ⟨rfl, rfl, rfl⟩, ?_⟩
    simp [h]
  · rw [if_neg h]
    refine ⟨fun _ => ⟨rfl, rfl, rfl⟩, fun hle => absurd hle h, ?_⟩
    simp [h]

/-- Witness for C2 (amended): a first graph-miss INVALID issues the
fallback immediately; a second INVALID of any kind at `now = 7` sets the
cooldown to `7 + 45 = 52` and resets the counter. -/
theorem C2_invalid_escalation_witness :
    (handleInvalid InvalidKind.graphMiss ⟨0, 0, 0⟩ 7).2 = true ∧
    (handleInvalid InvalidKind.valUturn ⟨0, 1, 0⟩ 7).1.invalid_count = 0 ∧
    (handleInvalid InvalidKind.valUturn ⟨0, 1, 0⟩ 7).1.cooldown_until = 52 := by
  have h1 := (C2_invalid_escalation InvalidKind.graphMiss ⟨0, 0, 0⟩ 7).2.2
  have h2 := (C2_invalid_escalation InvalidKind.valUturn ⟨0, 1, 0⟩ 7).2.1
    (by norm_num [INVALID_THRESHOLD])
  refine ⟨h1.mpr (Or.inl rfl), h2.1, ?_⟩
  rw [h2.2.1]
  norm_num [COOLDOWN_SECONDS]

/-- A per-agent environment in which every stage succeeds: the planner
returns `["A", "B", "C"]`, the first hop is reachable, no U-turn, all
pairs connected, and the commit is accepted. -/
def envC3 : AgentEnv :=
  { laneRemain := none
    curEdge := "A"
    route := ["A", "C"]
    hasCur := true
    hasDest := true
    planner := some ["A", "B", "C"]
    allowedFromLane := ["B"]
    conn := fun _ _ => true
    commitOk := true }

/-- Claim C3: in Final2.py an attempt with `now − last_reroute <
REROUTE_PERIOD` is skipped — no planner call, no commit, no fallback, no
state change — for **every** environment; but in FinalnoTLS.py the same
attempt 5 s after the last committed reroute (5 < REROUTE_PERIOD = 15)
runs the planner and commits, because that variant never checks
`last_reroute`.  The first conjunct proves the claimed behaviour for
Final2.py; the remaining conjuncts evaluate FinalnoTLS.py at the failing
input. -/
theorem C3_reroute_throttle :
    (∀ (e : AgentEnv) (s : F2State) (t : ℚ),
      t - s.last_reroute < REROUTE_PERIOD_F2 → f2_step e t s = f2_skip s) ∧
    (fnt_step envC3 5 ⟨0, 0⟩).plannerCalled = true ∧
    (fnt_step envC3 5 ⟨0, 0⟩).committed = true ∧
    (fnt_step envC3 5 ⟨0, 0⟩).state.last_reroute = 5 ∧
    (5 : ℚ) - 0 < REROUTE_PERIOD_FNT := by
  have hfnt : fnt_step envC3 5 ⟨0, 0⟩ = ⟨true, true, false, ⟨5, 0⟩⟩ := by
    rw [fnt_step]
    rw [if_neg (by decide)]
    rw [if_neg (by decide)]
    simp only [show envC3.route.getLast? = some "C" from rfl]
    rw [if_neg (by decide)]
    rw [if_neg (by decide)]
    simp only [show envC3.planner = some ["A", "B", "C"] from rfl]
    rw [if_neg (by decide)]
    rw [if_neg (by decide)]
    rw [if_pos (by decide)]
  refine ⟨?_, by rw [hfnt], by rw [hfnt], by rw [hfnt], by norm_num [REROUTE_PERIOD_FNT]⟩
  intro e s t ht
  rw [f2_step]
  by_cases hc : t < s.cooldown_until
  · rw [if_pos hc]
  · rw [if_neg hc, if_pos ht]

/-- Witness for C3: the Final2.py gate applied at the concrete failing
input — an attempt 5 s after a commit at time 0 is skipped. -/
theorem C3_reroute_throttle_witness :
    f2_step envC3 5 ⟨0, 0, 0⟩ = f2_skip ⟨0, 0, 0⟩ :=
  C3_reroute_throttle.1 envC3 ⟨0, 0, 0⟩ 5
    (by norm_num [REROUTE_PERIOD_F2])

/-! ## Path planner (dijkstra.py) -/

/-- The graph handed to `Dijkstra`: a Python dict `{vertex: {vertex:
weight}}`, modelled as an insertion-ordered association list with unique
keys (a dict cannot hold duplicate keys). -/
abbrev JGraph := List (String × List (String × ℚ))

/-- `self.graph.get(v, {}).items()` (dijkstra.py 17, 41). -/
def nbrs (g : JGraph) (v : String) : List (String × ℚ) :=
  (List.lookup v g).getD []

/-- The members of `set(graph.keys()) | {v for neighbors in
graph.values() for v in neighbors}` (dijkstra.py 10), as a list possibly
with duplicates; only membership matters. -/
def vertsOf (g : JGraph) : List String :=
  g.map Prod.fst ++ g.flatMap (fun p => p.2.map Prod.fst)

/-- One entry of `self.vertex_labels` (dijkstra.py 13): `none` models
`math.inf` / `None`. -/
structure DLabel where
  dist : Option ℚ
  prev : Option String

/-- dijkstra.py 13-14: all distances infinite except the start vertex.
(If `start ∉ vertices` the Python constructor raises `KeyError`; the
theorems below assume `start ∈ order`.) -/
def initLabels (start : String) : String → DLabel :=
  fun v => if v = start then ⟨some 0, none⟩ else ⟨none, none⟩

/-- Strict `<` on distances with `none = math.inf`. -/
def oLT : Option ℚ → Option ℚ → Bool
  | none, _ => false
  | some _, none => true
  | some x, some y => decide (x < y)

/-- `≤` on distances with `none = math.inf` (for specifications). -/
def oLE : Option ℚ → Option ℚ → Prop
  | _, none => True
  | none, some _ => False
  | some x, some y => x ≤ y

/-- One comparison step of Python's `min(..., key=..., default=None)`:
the running best is replaced only on strict improvement, so the first
minimum in iteration order wins. -/
def selStep (L : String → DLabel) (best : Option String) (v : String) :
    Option String :=
  match best with
  | none => some v
  | some b => if oLT (L v).dist (L b).dist then some v else best

/-- `min((v for v in self.vertices if v not in visited), key=...,
default=None)` (dijkstra.py 30-34).  `order` is the iteration order of
the `self.vertices` list; since that list is built from a Python `set`
(line 10), this order is not determined by the graph alone and is passed
as an explicit parameter. -/
def selectMin (order vis : List String) (L : String → DLabel) : Option String :=
  (order.filter (fun v => !(vis.contains v))).foldl (selStep L) none

/-- `self._set_label(neighbor, alt, current)` (dijkstra.py 19-21, 44). -/
def upd (L : String → DLabel) (v : String) (d : ℚ) (p : String) :
    String → DLabel :=
  fun x => if x = v then ⟨some d, some p⟩ else L x

/-- One relaxation (dijkstra.py 42-44): `alt = dist[current] + weight;
if alt < dist[neighbor]: set_label(neighbor, alt, current)`.  The current
distance is re-read from the evolving labels, as in the source. -/
def relaxStep (c : String) (L : String → DLabel) (nw : String × ℚ) :
    String → DLabel :=
  match (L c).dist with
  | none => L
  | some dc =>
    if oLT (some (dc + nw.2)) (L nw.1).dist then upd L nw.1 (dc + nw.2) c else L

/-- The `for neighbor, weight in self.graph.get(current, {}).items()`
loop (dijkstra.py 41-44). -/
def relaxAll (g : JGraph) (c : String) (L : String → DLabel) :
    String → DLabel :=
  (nbrs g c).foldl (relaxStep c) L

/-- The main loop of `dijkstra()` (dijkstra.py 26-44), with fuel: each
iteration visits one more vertex, so `order.length` fuel is exact; the
fuel-exhausted case returns the current state, which the loop guard
`len(visited) < len(self.vertices)` makes unreachable for that fuel.
`vis` is the `visited` set, kept in visit order. -/
def dloop (g : JGraph) (order : List String) :
    ℕ → (String → DLabel) → List String → ((String → DLabel) × List String)
  | 0, L, vis => (L, vis)
  | fuel + 1, L, vis =>
    if vis.length < order.length then
      match selectMin order vis L with
      | none => (L, vis)
      | some c =>
        match (L c).dist with
        | none => (L, vis)
        | some _ => dloop g order fuel (relaxAll g c L) (vis ++ [c])
    else (L, vis)

/-- `Dijkstra(graph, start); d.dijkstra()`: the labels and visited set
after the search. -/
def runD (g : JGraph) (order : List String) (start : String) :
    (String → DLabel) × List String :=
  dloop g order order.length (initLabels start) []

/-- The `while vertex is not None` walk of `build_path` (dijkstra.py
50-53), in walk order (target first), with fuel.  Under the invariants
established below the predecessor chain is acyclic and shorter than the
fuel used, so the walk always completes. -/
def walkF (L : String → DLabel) : ℕ → String → List String
  | 0, _ => []
  | fuel + 1, v =>
    v :: (match (L v).prev with
          | none => []
          | some u => walkF L fuel u)

/-- `build_path(vertex)` (dijkstra.py 46-54): the early return for a
vertex absent from the label table or without a predecessor, else the
walk reversed (the Python builds it with `path.insert(0, vertex)`). -/
def build_path (order : List String) (start : String) (L : String → DLabel)
    (v : String) : List String :=
  if v ∉ order ∨ (L v).prev = none then (if v = start then [v] else [])
  else (walkF L (order.length + 1) v).reverse

/-- Full planner run: search from `start`, then `build_path(target)`. -/
def dijkstraPath (g : JGraph) (order : List String) (start target : String) :
    List String :=
  build_path order start (runD g order start).1 target

/-- Reachability in the planner's graph. -/
inductive Reach (g : JGraph) (s : String) : String → Prop
  | refl : Reach g s s
  | step {u v : String} {w : ℚ} : Reach g s u → (v, w) ∈ nbrs g u → Reach g s v

/-- Position of a vertex in the visit order (length of the list if
absent). -/
def idxOf : List String → String → ℕ
  | [], _ => 0
  | a :: l, x => if a = x then 0 else idxOf l x + 1

theorem dloop_zero (g : JGraph) (order : List String)
    (L : String → DLabel) (vis : List String) :
    dloop g order 0 L vis = (L, vis) := rfl

theorem dloop_succ (g : JGraph) (order : List String) (fuel : ℕ)
    (L : String → DLabel) (vis : List String) :
    dloop g order (fuel + 1) L vis =
      if vis.length < order.length then
        match selectMin order vis L with
        | none => (L, vis)
        | some c =>
          match (L c).dist with
          | none => (L, vis)
          | some _ => dloop g order fuel (relaxAll g c L) (vis ++ [c])
      else (L, vis) := rfl

theorem walkF_succ (L : String → DLabel) (fuel : ℕ) (v : String) :
    walkF L (fuel + 1) v =
      v :: (match (L v).prev with
            | none => []
            | some u => walkF L fuel u) := rfl

def sV : String := "s"
def aV : String := "a"
def bV : String := "b"
def tV : String := "t"

/-- A diamond graph with an equal-cost tie: two shortest `s → t` paths of
cost 2, through `a` or through `b`. -/
def gEx : JGraph :=
  [("s", [("a", 1), ("b", 1)]),
   ("a", [("t", 1)]),
   ("b", [("t", 1)])]

/-- One possible iteration order of `list(set(...))` over the vertex set. -/
def ordEx1 : List String := ["s", "a", "b", "t"]

/-- Another iteration order of the same vertex set. -/
def ordEx2 : List String := ["s", "b", "a", "t"]

theorem ev_path_ord1 : dijkstraPath gEx ordEx1 sV tV = [sV, aV, tV] := by
  rw [dijkstraPath, runD]
  rw [show ordEx1.length = 4 from rfl]
  rw [show (4:ℕ) = 3 + 1 from rfl, dloop_succ]
  simp only [ordEx1, sV, aV, bV, tV]
  simp [selectMin, selStep, initLabels, oLT, relaxAll, relaxStep,
    nbrs, gEx, upd, List.lookup, show ((1:ℚ)+1 : ℚ) = 2 from by norm_num]
  rw [show (3:ℕ) = 2 + 1 from rfl, dloop_succ]
  simp [selectMin, selStep, initLabels, oLT, relaxAll, relaxStep,
    nbrs, gEx, upd, List.lookup, show ((1:ℚ)+1 : ℚ) = 2 from by norm_num]
  rw [show (2:ℕ) = 1 + 1 from rfl, dloop_succ]
  simp [selectMin, selStep, initLabels, oLT, relaxAll, relaxStep,
    nbrs, gEx, upd, List.lookup, show ((1:ℚ)+1 : ℚ) = 2 from by norm_num]
  rw [show (1:ℕ) = 0 + 1 from rfl, dloop_succ]
  simp [selectMin, selStep, initLabels, oLT, relaxAll, relaxStep,
    nbrs, gEx, upd, List.lookup, show ((1:ℚ)+1 : ℚ) = 2 from by norm_num]
  rw [dloop_zero]
  rw [build_path]
  rw [if_neg (by simp [upd, initLabels])]
  rw [show ((["s", "a", "b", "t"] : List String).length + 1) = 4 + 1 from rfl,
    walkF_succ]
  simp only [upd, initLabels]
  simp
  rw [show (4:ℕ) = 3 + 1 from rfl, walkF_succ]
  simp only [upd, initLabels]
  simp
  rw [show (3:ℕ) = 2 + 1 from rfl, walkF_succ]
  simp [upd, initLabels]

theorem ev_path_ord2 : dijkstraPath gEx ordEx2 sV tV = [sV, bV, tV] := by
  rw [dijkstraPath, runD]
  rw [show ordEx2.length = 4 from rfl]
  rw [show (4:ℕ) = 3 + 1 from rfl, dloop_succ]
  simp only [ordEx2, sV, aV, bV, tV]
  simp [selectMin, selStep, initLabels, oLT, relaxAll, relaxStep,
    nbrs, gEx, upd, List.lookup, show ((1:ℚ)+1 : ℚ) = 2 from by norm_num]
  rw [show (3:ℕ) = 2 + 1 from rfl, dloop_succ]
  simp [selectMin, selStep, initLabels, oLT, relaxAll, relaxStep,
    nbrs, gEx, upd, List.lookup, show ((1:ℚ)+1 : ℚ) = 2 from by norm_num]
  rw [show (2:ℕ) = 1 + 1 from rfl, dloop_succ]
  simp [selectMin, selStep, initLabels, oLT, relaxAll, relaxStep,
    nbrs, gEx, upd, List.lookup, show ((1:ℚ)+1 : ℚ) = 2 from by norm_num]
  rw [show (1:ℕ) = 0 + 1 from rfl, dloop_succ]
  simp [selectMin, selStep, initLabels, oLT, relaxAll, relaxStep,
    nbrs, gEx, upd, List.lookup, show ((1:ℚ)+1 : ℚ) = 2 from by norm_num]
  rw [dloop_zero]
  rw [build_path]
  rw [if_neg (by simp [upd, initLabels])]
  rw [show ((["s", "b", "a", "t"] : List String).length + 1) = 4 + 1 from rfl,
    walkF_succ]
  simp only [upd, initLabels]
  simp
  rw [show (4:ℕ) = 3 + 1 from rfl, walkF_succ]
  simp only [upd, initLabels]
  simp
  rw [show (3:ℕ) = 2 + 1 from rfl, walkF_succ]
  simp [upd, initLabels]

/-- Counterexample to claim C8: the planner's vertex list comes from a
Python `set` (dijkstra.py line 10), whose iteration order is not
determined by the graph.  Over the same graph, the same weights and the
same vertex set, two runs that enumerate the set differently resolve the
equal-cost tie differently and return different paths. -/
theorem C8_order_dependent_cex :
    List.Perm ordEx1 ordEx2 ∧ ordEx1.Nodup ∧ ordEx2.Nodup ∧
    dijkstraPath gEx ordEx1 sV tV = [sV, aV, tV] ∧
    dijkstraPath gEx ordEx2 sV tV = [sV, bV, tV] ∧
    dijkstraPath gEx ordEx1 sV tV ≠ dijkstraPath gEx ordEx2 sV tV := by
  refine ⟨by decide, by decide, by decide, ev_path_ord1, ev_path_ord2, ?_⟩
  rw [ev_path_ord1, ev_path_ord2]
  decide

theorem oLT_irrefl (a : Option ℚ) : oLT a a = false := by
  cases a <;> simp [oLT]

theorem oLT_asymm {a b : Option ℚ} (h : oLT a b = true) : oLT b a = false := by
  cases a <;> cases b <;> simp [oLT] at * <;> linarith

theorem oLT_trans {a b c : Option ℚ} (h1 : oLT a b = true)
    (h2 : oLT b c = true) : oLT a c = true := by
  cases a <;> cases b <;> cases c <;> simp [oLT] at * <;> linarith

theorem oLT_of_lt_of_nlt {a b c : Option ℚ} (h1 : oLT a b = true)
    (h2 : oLT c b = false) : oLT a c = true := by
  cases a <;> cases b <;> cases c <;> simp [oLT] at * <;> linarith

/-- Characterization of the fold behind Python's
`min(..., key=..., default=None)`: starting from the running best `b`,
the result `c` is no worse than every scanned element and than `b`, and —
unless it is `b` itself — it occupies a position in the scanned list such
that every element before it is strictly worse (`min` replaces the best
only on strict improvement, so the earliest minimum wins). -/
theorem selFold_spec (L : String → DLabel) :
    ∀ (l : List String) (b c : String),
      l.foldl (selStep L) (some b) = some c →
      (∀ v ∈ l, oLT (L v).dist (L c).dist = false) ∧
      (c = b ∨ oLT (L c).dist (L b).dist = true) ∧
      (c = b ∨ ∃ l₁ l₂, l = l₁ ++ c :: l₂ ∧
        ∀ v ∈ l₁, oLT (L c).dist (L v).dist = true) := by
  intro l
  induction l with
  | nil =>
    intro b c h
    simp only [List.foldl_nil, Option.some.injEq] at h
    subst h
    exact ⟨by simp, Or.inl rfl, Or.inl rfl⟩
  | cons v l ih =>
    intro b c h
    simp only [List.foldl_cons, selStep] at h
    by_cases hv : oLT (L v).dist (L b).dist = true
    · rw [if_pos hv] at h
      obtain ⟨h1, h2, h3⟩ := ih v c h
      refine ⟨?_, ?_, ?_⟩
      · intro x hx
        rcases List.mem_cons.mp hx with hxv | hxl
        · subst hxv
          rcases h2 with hc | hc
          · rw [hc]; exact oLT_irrefl _
          · exact oLT_asymm hc
        · exact h1 x hxl
      · right
        rcases h2 with hc | hc
        · rw [hc]; exact hv
        · exact oLT_trans hc hv
      · right
        rcases h2 with hc | hc
        · exact ⟨[], l, by rw [hc]; rfl, by simp⟩
        · rcases h3 with hc' | ⟨l₁, l₂, hsplit, hbefore⟩
          · rw [hc'] at hc
            simp [oLT_irrefl] at hc
          · refine ⟨v :: l₁, l₂, by rw [hsplit]; rfl, ?_⟩
            intro x hx
            rcases List.mem_cons.mp hx with hxv | hxl
            · subst hxv; exact hc
            · exact hbefore x hxl
    · rw [if_neg hv] at h
      have hvf : oLT (L v).dist (L b).dist = false := eq_false_of_ne_true hv
      obtain ⟨h1, h2, h3⟩ := ih b c h
      refine ⟨?_, h2, ?_⟩
      · intro x hx
        rcases List.mem_cons.mp hx with hxv | hxl
        · subst hxv
          rcases h2 with hc | hc
          · rw [hc]; exact hvf
          · by_cases hvc : oLT (L x).dist (L c).dist = true
            · exact absurd (oLT_trans hvc hc) (by rw [hvf]; simp)
            · exact eq_false_of_ne_true hvc
        · exact h1 x hxl
      · rcases h2 with hc2 | hc2
        · exact Or.inl hc2
        · rcases h3 with hc3 | ⟨l₁, l₂, hsplit, hbefore⟩
          · rw [hc3] at hc2
            simp [oLT_irrefl] at hc2
          · right
            refine ⟨v :: l₁, l₂, by rw [hsplit]; rfl, ?_⟩
            intro x hx
            rcases List.mem_cons.mp hx with hxv | hxl
            · subst hxv
              exact oLT_of_lt_of_nlt hc2 hvf
            · exact hbefore x hxl

/-- Claim C8, amended to what dijkstra.py does: within one run the
selection rule is deterministic *relative to the vertex enumeration*:
`selectMin` returns an unvisited vertex of minimal distance, and among
equal-distance candidates the one earliest in the enumeration (every
unvisited vertex placed before it is strictly farther).  But the
enumeration itself is the iteration order of a Python `set`, so two runs
over the same graph and vertex set need not enumerate alike, and
equal-cost ties may then resolve differently (see the counterexample). -/
theorem C8_tie_break_by_order (order vis : List String) (L : String → DLabel)
    (c : String) (h : selectMin order vis L = some c) :
    c ∈ order ∧ c ∉ vis ∧
    (∀ v ∈ order, v ∉ vis → oLT (L v).dist (L c).dist = false) ∧
    (∃ l₁ l₂, order.filter (fun v => !(vis.contains v)) = l₁ ++ c :: l₂ ∧
      ∀ v ∈ l₁, oLT (L c).dist (L v).dist = true) := by
  rw [selectMin] at h
  rcases hfl : order.filter (fun v => !(vis.contains v)) with _ | ⟨v, fl⟩
  · rw [hfl] at h
    simp at h
  · rw [hfl] at h
    simp only [List.foldl_cons, selStep] at h
    obtain ⟨h1, h2, h3⟩ := selFold_spec L fl v c h
    have hcfl : c ∈ order.filter (fun v => !(vis.contains v)) := by
      rw [hfl]
      rcases h3 with hc | ⟨l₁, l₂, hsplit, _⟩
      · rw [hc]; exact List.mem_cons_self _ _
      · rw [hsplit]
        exact List.mem_cons_of_mem _ (List.mem_append_right _ (List.mem_cons_self _ _))
    have hc_mem := List.mem_filter.mp hcfl
    have hc_ord : c ∈ order := hc_mem.1
    have hc_nvis : c ∉ vis := by
      have := hc_mem.2
      simp at this
      exact this
    refine ⟨hc_ord, hc_nvis, ?_, ?_⟩
    · intro x hx hnx
      have hxfl : x ∈ order.filter (fun v => !(vis.contains v)) := by
        rw [List.mem_filter]
        refine ⟨hx, by simp [hnx]⟩
      rw [hfl] at hxfl
      rcases List.mem_cons.mp hxfl with hxv | hxl
      · subst hxv
        rcases h2 with hc | hc
        · rw [hc]; exact oLT_irrefl _
        · exact oLT_asymm hc
      · exact h1 x hxl
    · rcases h2 with hc | hc
      · refine ⟨[], fl, by rw [hc]; rfl, by simp⟩
      · rcases h3 with hc3 | ⟨l₁, l₂, hsplit, hbefore⟩
        · rw [hc3] at hc
          simp [oLT_irrefl] at hc
        · refine ⟨v :: l₁, l₂, by rw [hsplit]; rfl, ?_⟩
          intro x hx
          rcases List.mem_cons.mp hx with hxv | hxl
          · subst hxv; exact hc
          · exact hbefore x hxl

/-- Witness for C8 (amended): at the start of a run over the tie graph,
the selection picks the start vertex, no unvisited vertex is strictly
closer, and it is the earliest minimal vertex of the enumeration. -/
theorem C8_tie_break_by_order_witness :
    sV ∈ ordEx1 ∧
    (∀ v ∈ ordEx1, v ∉ ([] : List String) →
      oLT ((initLabels sV) v).dist ((initLabels sV) sV).dist = false) := by
  have h := C8_tie_break_by_order ordEx1 [] (initLabels sV) sV (by
    simp [selectMin, selStep, initLabels, oLT, ordEx1, sV, aV, bV, tV])
  exact ⟨h.1, h.2.2.1⟩

/-! ## Persistence (run_dijkstra.py, lines 16-42) -/

/-- `save_graph_to_csv(graph)` (run_dijkstra.py 36-42): one
`(From, To, AvgTime)` row per stored edge, in dict iteration order.
Python's float→text→float trip through the CSV is exact (`repr`
round-trips floats), so rows carry the numeric value directly. -/
def saveRows (g : JGraph) : List (String × String × ℚ) :=
  g.flatMap (fun p => p.2.map (fun q => (p.1, q.1, q.2)))

/-- The inner-dict write `graph[f][t] = w`: overwrite an existing key in
place, else append. -/
def setPair (l : List (String × ℚ)) (t : String) (w : ℚ) : List (String × ℚ) :=
  if t ∈ l.map Prod.fst then
    l.map (fun q => if q.1 = t then (t, w) else q)
  else l ++ [(t, w)]

/-- `graph.setdefault(from_edge, {})[to_edge] = avg_time`
(run_dijkstra.py 30). -/
def insertEdge (g : JGraph) (f t : String) (w : ℚ) : JGraph :=
  if f ∈ g.map Prod.fst then
    g.map (fun p => if p.1 = f then (p.1, setPair p.2 t w) else p)
  else g ++ [(f, [(t, w)])]

/-- One row of `load_graph_from_csv` (run_dijkstra.py 24-30): skip rows
with a pseudo-segment endpoint, insert the rest. -/
def loadStep (g : JGraph) (r : String × String × ℚ) : JGraph :=
  if isInternal r.1 = true ∨ isInternal r.2.1 = true then g
  else insertEdge g r.1 r.2.1 r.2.2

/-- `load_graph_from_csv` (run_dijkstra.py 16-34) applied to a wellformed
row list (rows written by `save_graph_to_csv` never make `float(...)`
raise, so the `except` path that returns a partial graph is dead). -/
def loadRows (rows : List (String × String × ℚ)) : JGraph :=
  rows.foldl loadStep []

/-- A graph as actually built by the scripts: unique keys, unique inner
keys, no pseudo-segments, and every key created together with at least
one target (`setdefault(f, {})[t] = w` never leaves an empty inner
dict). -/
def GoodGraph (g : JGraph) : Prop :=
  (g.map Prod.fst).Nodup ∧
  ∀ p ∈ g, p.2 ≠ [] ∧ (p.2.map Prod.fst).Nodup ∧
    isInternal p.1 = false ∧ ∀ q ∈ p.2, isInternal q.1 = false

instance (g : JGraph) : Decidable (GoodGraph g) := by
  unfold GoodGraph
  infer_instance

theorem setPair_append (cur : List (String × ℚ)) (t : String) (w : ℚ)
    (h : t ∉ cur.map Prod.fst) : setPair cur t w = cur ++ [(t, w)] := by
  rw [setPair, if_neg h]

theorem insertEdge_last (pre : JGraph) (f : String) (cur : List (String × ℚ))
    (t : String) (w : ℚ) (hpre : ∀ p ∈ pre, p.1 ≠ f) :
    insertEdge (pre ++ [(f, cur)]) f t w = pre ++ [(f, setPair cur t w)] := by
  rw [insertEdge, if_pos (by simp)]
  rw [List.map_append]
  congr 1
  · conv_rhs => rw [show pre = pre.map id from by simp]
    apply List.map_congr_left
    intro p hp
    rw [if_neg (hpre p hp)]
    rfl
  · simp

theorem insertEdge_new (g : JGraph) (f t : String) (w : ℚ)
    (h : f ∉ g.map Prod.fst) : insertEdge g f t w = g ++ [(f, [(t, w)])] := by
  rw [insertEdge, if_neg h]

theorem load_rows_of_key (f : String) :
    ∀ (ns : List (String × ℚ)) (pre : JGraph) (cur : List (String × ℚ)),
      (∀ p ∈ pre, p.1 ≠ f) →
      (∀ t ∈ ns.map Prod.fst, t ∉ cur.map Prod.fst) →
      (ns.map Prod.fst).Nodup →
      isInternal f = false →
      (∀ q ∈ ns, isInternal q.1 = false) →
      (ns.map (fun q => (f, q.1, q.2))).foldl loadStep (pre ++ [(f, cur)]) =
        pre ++ [(f, cur ++ ns)] := by
  intro ns
  induction ns with
  | nil =>
    intro pre cur _ _ _ _ _
    simp
  | cons q ns ih =>
    intro pre cur hpre hdisj hnd hf hint
    simp only [List.map_cons, List.foldl_cons]
    rw [loadStep]
    rw [if_neg (by
      rw [hf, hint q (List.mem_cons_self _ _)]
      simp)]
    rw [insertEdge_last pre f cur q.1 q.2 hpre]
    rw [setPair_append cur q.1 q.2 (hdisj q.1 (by simp))]
    have hdisj' : ∀ t ∈ ns.map Prod.fst, t ∉ (cur ++ [(q.1, q.2)]).map Prod.fst := by
      intro t ht
      rw [List.map_append, List.mem_append]
      rintro (hc | hc)
      · exact hdisj t (by simp [ht]) hc
      · simp at hc
        rw [List.map_cons, List.nodup_cons] at hnd
        exact hnd.1 (hc ▸ ht)
    have hnd' : (ns.map Prod.fst).Nodup := by
      rw [List.map_cons, List.nodup_cons] at hnd
      exact hnd.2
    have hint' : ∀ q' ∈ ns, isInternal q'.1 = false := by
      intro q' hq'
      exact hint q' (List.mem_cons_of_mem _ hq')
    rw [ih pre (cur ++ [(q.1, q.2)]) hpre hdisj' hnd' hf hint']
    simp

theorem load_save_acc (g : JGraph) :
    ∀ acc : JGraph,
      GoodGraph g →
      (∀ p ∈ acc, ∀ p2 ∈ g, p.1 ≠ p2.1) →
      (saveRows g).foldl loadStep acc = acc ++ g := by
  induction g with
  | nil =>
    intro acc _ _
    simp [saveRows]
  | cons p g ih =>
    intro acc hgood hdisj
    obtain ⟨hnd, hprops⟩ := hgood
    obtain ⟨hne, hinnernd, hfint, hqint⟩ := hprops p (List.mem_cons_self _ _)
    rw [show saveRows (p :: g) =
        p.2.map (fun q => (p.1, q.1, q.2)) ++ saveRows g from by
      simp [saveRows]]
    rw [List.foldl_append]
    rcases hq : p.2 with _ | ⟨q1, ns⟩
    · exact absurd hq hne
    simp only [List.map_cons, List.foldl_cons]
    rw [loadStep]
    rw [if_neg (by
      rw [hfint, hqint q1 (by rw [hq]; exact List.mem_cons_self _ _)]
      simp)]
    have hprenew : ∀ r ∈ acc, r.1 ≠ p.1 := by
      intro r hr
      exact hdisj r hr p (List.mem_cons_self _ _)
    rw [insertEdge_new acc p.1 q1.1 q1.2 (by
      intro hmem
      obtain ⟨r, hr, hr1⟩ := List.mem_map.mp hmem
      exact hprenew r hr hr1)]
    have hdisj1 : ∀ t ∈ ns.map Prod.fst, t ∉ ([(q1.1, q1.2)] : List (String × ℚ)).map Prod.fst := by
      intro t ht
      simp only [List.map_cons, List.map_nil, List.mem_singleton]
      intro hc
      rw [hq, List.map_cons, List.nodup_cons] at hinnernd
      exact hinnernd.1 (hc ▸ ht)
    have hnd1 : (ns.map Prod.fst).Nodup := by
      rw [hq, List.map_cons, List.nodup_cons] at hinnernd
      exact hinnernd.2
    have hint1 : ∀ q' ∈ ns, isInternal q'.1 = false := by
      intro q' hq'
      exact hqint q' (by rw [hq]; exact List.mem_cons_of_mem _ hq')
    rw [load_rows_of_key p.1 ns acc [(q1.1, q1.2)] hprenew hdisj1 hnd1 hfint hint1]
    have hpfix : (acc ++ [(p.1, [(q1.1, q1.2)] ++ ns)]) = acc ++ [p] := by
      have h1 : ([(q1.1, q1.2)] ++ ns : List (String × ℚ)) = q1 :: ns := by simp
      rw [h1, ← hq]
    rw [hpfix]
    have hgood' : GoodGraph g := by
      refine ⟨(List.nodup_cons.mp hnd).2, ?_⟩
      intro p' hp'
      exact hprops p' (List.mem_cons_of_mem _ hp')
    have hdisj' : ∀ r ∈ acc ++ [p], ∀ p2 ∈ g, r.1 ≠ p2.1 := by
      intro r hr p2 hp2
      rcases List.mem_append.mp hr with hr | hr
      · exact hdisj r hr p2 (List.mem_cons_of_mem _ hp2)
      · simp at hr
        subst hr
        rw [List.map_cons, List.nodup_cons] at hnd
        intro hc
        exact hnd.1 (hc ▸ List.mem_map_of_mem Prod.fst hp2)
    rw [ih (acc ++ [p]) hgood' hdisj']
    simp

/-- Claim C7: saving the travel-time graph to the CSV row set and
reloading it reconstructs the graph exactly, so recomputing the shortest
path from the reloaded graph returns the same path as the in-memory
computation, for every vertex enumeration, start and target. -/
theorem C7_roundtrip (g : JGraph) (hg : GoodGraph g) :
    loadRows (saveRows g) = g ∧
    ∀ (order : List String) (s t : String),
      dijkstraPath (loadRows (saveRows g)) order s t =
        dijkstraPath g order s t := by
  have h : loadRows (saveRows g) = g := by
    have := load_save_acc g [] hg (by simp)
    simpa [loadRows] using this
  exact ⟨h, fun order s t => by rw [h]⟩

/-- A concrete junction graph for the round-trip witness. -/
def gC7 : JGraph :=
  [("J1", [("J2", 7), ("J3", 4)]),
   ("J2", [("J3", 2)])]

def ordC7 : List String := ["J1", "J2", "J3"]

def j1V : String := "J1"
def j3V : String := "J3"

/-- Witness for C7: the concrete junction graph survives the round trip
and the recomputed shortest path coincides with the in-memory one. -/
theorem C7_roundtrip_witness :
    loadRows (saveRows gC7) = gC7 ∧
    dijkstraPath (loadRows (saveRows gC7)) ordC7 j1V j3V =
      dijkstraPath gC7 ordC7 j1V j3V := by
  have h := C7_roundtrip gC7 (by decide)
  exact ⟨h.1, h.2 ordC7 j1V j3V⟩

/-! ## Topology builder (Final2.py 176-203 / FinalnoTLS.py 173-200) -/

/-- The prefix before the first underscore: `lane_id.split("_")[0]`
(whole string when there is no underscore — FinalnoTLS.py spells this
case out explicitly at line 188; the result is identical). -/
def takeUntilUnderscore : List Char → List Char
  | [] => []
  | c :: cs => if c = '_' then [] else c :: takeUntilUnderscore cs

def laneBase (s : String) : String := ⟨takeUntilUnderscore s.data⟩

/-- One edge of `traci.edge.getIDList()` with its probed attributes;
`none` models a raised `getLength`/`getMaxSpeed` (defaults 1.0 and 13.9
applied at the use site, Final2.py 181-188). -/
structure EdgeProbe where
  id : String
  len : Option ℚ
  maxSpeed : Option ℚ

/-- One lane of `traci.lane.getIDList()` with its outgoing lanes as
returned by `_safe_iter_out_lanes`. -/
structure LaneProbe where
  id : String
  outLanes : List String

/-- The `networkx.DiGraph` being built: node attributes
`(id, length, speed_limit)` and arcs.  (`add_edge` may record an arc
more than once in this list model; only membership matters to the
claims.) -/
structure EGraph where
  nodes : List (String × ℚ × ℚ)
  arcs : List (String × String)

def egNodeIds (nodes : List (String × ℚ × ℚ)) : List String := nodes.map Prod.fst

/-- `build_edge_graph_from_traci(vehicle_class)` (Final2.py 176-203):
nodes from the edge list, skipping empty and pseudo (`:`-prefixed) ids;
arcs from lane connectivity, skipping pseudo endpoints, endpoints not in
the node set, and lanes the class may not use (`_lane_allows_class` is a
pure collaborator query, abstracted as `allows`). -/
def build_edge_graph_from_traci (edges : List EdgeProbe)
    (lanes : List LaneProbe) (allows : String → Bool) : EGraph :=
  let nodes := edges.filterMap (fun e =>
    if e.id = emptyS ∨ isInternal e.id = true then none
    else some (e.id, e.len.getD 1, e.maxSpeed.getD (139/10)))
  let nodeIds := egNodeIds nodes
  let arcs := lanes.flatMap (fun ln =>
    let base := laneBase ln.id
    if base = emptyS ∨ isInternal base = true ∨ base ∉ nodeIds ∨
        allows ln.id = false then []
    else ln.outLanes.filterMap (fun toLane =>
      let toEdge := laneBase toLane
      if toEdge = emptyS ∨ isInternal toEdge = true ∨ toEdge ∉ nodeIds ∨
          allows toLane = false then none
      else some (base, toEdge)))
  ⟨nodes, arcs⟩

/-- Claim C9: for every topology input and agent class, the built graph
contains no pseudo-segments: every node id is non-empty and does not
begin with `:`, and both endpoints of every arc are graph nodes (hence
also not pseudo-segments). -/
theorem C9_no_pseudo_segments (edges : List EdgeProbe)
    (lanes : List LaneProbe) (allows : String → Bool) :
    (∀ n ∈ (build_edge_graph_from_traci edges lanes allows).nodes,
      isInternal n.1 = false ∧ n.1 ≠ emptyS) ∧
    (∀ a ∈ (build_edge_graph_from_traci edges lanes allows).arcs,
      a.1 ∈ egNodeIds (build_edge_graph_from_traci edges lanes allows).nodes ∧
      a.2 ∈ egNodeIds (build_edge_graph_from_traci edges lanes allows).nodes ∧
      isInternal a.1 = false ∧ isInternal a.2 = false) := by
  have hnodes : (build_edge_graph_from_traci edges lanes allows).nodes =
      edges.filterMap (fun e =>
        if e.id = emptyS ∨ isInternal e.id = true then none
        else some (e.id, e.len.getD 1, e.maxSpeed.getD (139/10))) := rfl
  have harcs : (build_edge_graph_from_traci edges lanes allows).arcs =
      lanes.flatMap (fun ln =>
        let base := laneBase ln.id
        if base = emptyS ∨ isInternal base = true ∨
            base ∉ egNodeIds ((build_edge_graph_from_traci edges lanes allows).nodes) ∨
            allows ln.id = false then []
        else ln.outLanes.filterMap (fun toLane =>
          let toEdge := laneBase toLane
          if toEdge = emptyS ∨ isInternal toEdge = true ∨
              toEdge ∉ egNodeIds ((build_edge_graph_from_traci edges lanes allows).nodes) ∨
              allows toLane = false then none
          else some (base, toEdge))) := rfl
  constructor
  · intro n hn
    rw [hnodes] at hn
    obtain ⟨e, _, heq⟩ := List.mem_filterMap.mp hn
    by_cases hc : e.id = emptyS ∨ isInternal e.id = true
    · rw [if_pos hc] at heq
      exact absurd heq (by simp)
    · rw [if_neg hc] at heq
      push_neg at hc
      have hn1 : n.1 = e.id := by
        have := heq
        simp only [Option.some.injEq] at this
        rw [← this]
      rw [hn1]
      exact ⟨eq_false_of_ne_true hc.2, hc.1⟩
  · intro a ha
    rw [harcs] at ha
    obtain ⟨ln, _, ha2⟩ := List.mem_flatMap.mp ha
    simp only at ha2
    by_cases hc : laneBase ln.id = emptyS ∨ isInternal (laneBase ln.id) = true ∨
        laneBase ln.id ∉ egNodeIds ((build_edge_graph_from_traci edges lanes allows).nodes) ∨
        allows ln.id = false
    · rw [if_pos hc] at ha2
      exact absurd ha2 (List.not_mem_nil a)
    · rw [if_neg hc] at ha2
      push_neg at hc
      obtain ⟨hb1, hb2, hb3, _⟩ := hc
      obtain ⟨toLane, _, heq⟩ := List.mem_filterMap.mp ha2
      by_cases hc2 : laneBase toLane = emptyS ∨ isInternal (laneBase toLane) = true ∨
          laneBase toLane ∉ egNodeIds ((build_edge_graph_from_traci edges lanes allows).nodes) ∨
          allows toLane = false
      · rw [if_pos hc2] at heq
        exact absurd heq (by simp)
      · rw [if_neg hc2] at heq
        push_neg at hc2
        obtain ⟨ht1, ht2, ht3, _⟩ := hc2
        have haeq : a = (laneBase ln.id, laneBase toLane) := by
          simp only [Option.some.injEq] at heq
          rw [← heq]
        rw [haeq]
        exact ⟨hb3, ht3, eq_false_of_ne_true hb2, eq_false_of_ne_true ht2⟩

def edgesC9 : List EdgeProbe :=
  [⟨"A", some 30, some 14⟩, ⟨"B", none, none⟩, ⟨":J0", some 1, some 1⟩]

def lanesC9 : List LaneProbe := [⟨"A_0", [":J0_0", "B_0"]⟩]

def allowsAll : String → Bool := fun _ => true

/-- Witness for C9: the concrete topology yields the arc `A → B` (the
`:J0` pseudo-edge and the `:J0_0` link are filtered out), and both
endpoints are non-pseudo graph nodes. -/
theorem C9_no_pseudo_segments_witness :
    ("A", "B") ∈ (build_edge_graph_from_traci edgesC9 lanesC9 allowsAll).arcs ∧
    isInternal "A" = false ∧ isInternal "B" = false := by
  have hmem : ("A", "B") ∈
      (build_edge_graph_from_traci edgesC9 lanesC9 allowsAll).arcs := by decide
  have h := (C9_no_pseudo_segments edgesC9 lanesC9 allowsAll).2 ("A", "B") hmem
  exact ⟨hmem, h.2.2⟩

/-! ## Structural correctness of `dijkstra()` + `build_path` (claim C10) -/

theorem oLE_refl (a : Option ℚ) : oLE a a := by
  cases a <;> simp [oLE]

theorem oLE_none_right (a : Option ℚ) : oLE a none := by
  cases a <;> simp [oLE]

theorem oLE_trans' {a b c : Option ℚ} (h1 : oLE a b) (h2 : oLE b c) : oLE a c := by
  cases a <;> cases b <;> cases c <;> simp [oLE] at * <;> linarith

theorem oLE_of_oLT_false {a b : Option ℚ} (h : oLT a b = false) : oLE b a := by
  cases a <;> cases b <;> simp [oLT, oLE] at * <;> linarith

theorem oLE_of_oLT {a b : Option ℚ} (h : oLT a b = true) : oLE a b := by
  cases a <;> cases b <;> simp [oLT, oLE] at * <;> linarith

theorem oLE_some_dest {a : Option ℚ} {d : ℚ} (h : oLE a (some d)) :
    ∃ d', a = some d' ∧ d' ≤ d := by
  cases a <;> simp [oLE] at *
  exact h

theorem oLE_some_mono {a : Option ℚ} {d e : ℚ} (h : oLE a (some d))
    (hde : d ≤ e) : oLE a (some e) := by
  cases a <;> simp [oLE] at * <;> linarith

theorem eq_none_of_oLT_none_false {a : Option ℚ} (h : oLT a none = false) :
    a = none := by
  cases a <;> simp [oLT] at *

theorem idxOf_le_length (l : List String) (x : String) : idxOf l x ≤ l.length := by
  induction l with
  | nil => simp [idxOf]
  | cons a l ih =>
    rw [idxOf]
    by_cases h : a = x
    · simp [h]
    · rw [if_neg h]
      simp
      omega

theorem idxOf_lt_length_of_mem {l : List String} {x : String} (h : x ∈ l) :
    idxOf l x < l.length := by
  induction l with
  | nil => simp at h
  | cons a l ih =>
    rw [idxOf]
    by_cases ha : a = x
    · simp [ha]
    · rw [if_neg ha]
      rcases List.mem_cons.mp h with hx | hx
      · exact absurd hx.symm ha
      · have := ih hx
        simp only [List.length_cons]
        omega

theorem idxOf_append_of_mem {l : List String} {x : String} (h : x ∈ l)
    (l₂ : List String) : idxOf (l ++ l₂) x = idxOf l x := by
  induction l with
  | nil => simp at h
  | cons a l ih =>
    simp only [List.cons_append, idxOf]
    by_cases ha : a = x
    · simp [ha]
    · rw [if_neg ha, if_neg ha]
      rcases List.mem_cons.mp h with hx | hx
      · exact absurd hx.symm ha
      · show idxOf (l ++ l₂) x + 1 = idxOf l x + 1
        rw [ih hx]

theorem idxOf_append_of_not_mem {l : List String} {x : String} (h : x ∉ l)
    (l₂ : List String) : idxOf (l ++ l₂) x = l.length + idxOf l₂ x := by
  induction l with
  | nil => simp
  | cons a l ih =>
    simp only [List.cons_append, idxOf, List.length_cons]
    have ha : a ≠ x := fun hc => h (hc ▸ List.mem_cons_self _ _)
    rw [if_neg ha]
    show idxOf (l ++ l₂) x + 1 = l.length + 1 + idxOf l₂ x
    rw [ih (fun hc => h (List.mem_cons_of_mem _ hc))]
    omega

theorem lookup_mem {g : JGraph} {k : String} {l : List (String × ℚ)}
    (h : List.lookup k g = some l) : (k, l) ∈ g := by
  induction g with
  | nil => simp [List.lookup] at h
  | cons p g ih =>
    rw [List.lookup] at h
    by_cases hk : (k == p.1) = true
    · rw [show (p : String × List (String × ℚ)) = (p.1, p.2) from rfl]
      have hkp : k = p.1 := by
        exact eq_of_beq hk
      simp only [hk] at h
      simp only [Option.some.injEq] at h
      rw [← h, ← hkp]
      exact List.mem_cons_self _ _
    · simp only [Bool.not_eq_true] at hk
      simp only [hk] at h
      exact List.mem_cons_of_mem _ (ih h)

theorem nbrs_dest {g : JGraph} {u : String} {p : String × ℚ}
    (h : p ∈ nbrs g u) : ∃ l, (u, l) ∈ g ∧ p ∈ l := by
  rw [nbrs] at h
  rcases hl : List.lookup u g with _ | l
  · rw [hl] at h
    simp at h
  · rw [hl] at h
    simp only [Option.getD] at h
    exact ⟨l, lookup_mem hl, h⟩

theorem target_mem_verts {g : JGraph} {u v : String} {w : ℚ}
    (h : (v, w) ∈ nbrs g u) : v ∈ vertsOf g := by
  obtain ⟨l, hgl, hvl⟩ := nbrs_dest h
  rw [vertsOf, List.mem_append]
  right
  rw [List.mem_flatMap]
  exact ⟨(u, l), hgl, List.mem_map_of_mem Prod.fst hvl⟩

theorem nodup_sub_length {l l' : List String} (hnd : l.Nodup) (hsub : l ⊆ l') :
    l.length ≤ l'.length := by
  have h1 : l.toFinset.card = l.length := List.toFinset_card_of_nodup hnd
  have h2 : l.toFinset ⊆ l'.toFinset := by
    intro x hx
    rw [List.mem_toFinset] at hx ⊢
    exact hsub hx
  have h3 : l'.toFinset.card ≤ l'.length := l'.toFinset_card_le
  have := Finset.card_le_card h2
  omega

theorem mem_of_nodup_length {l l' : List String} (hnd : l.Nodup)
    (hsub : l ⊆ l') (hlen : l'.length ≤ l.length) : ∀ v ∈ l', v ∈ l := by
  intro v hv
  have h1 : l.toFinset.card = l.length := List.toFinset_card_of_nodup hnd
  have h2 : l.toFinset ⊆ l'.toFinset := by
    intro x hx
    rw [List.mem_toFinset] at hx ⊢
    exact hsub hx
  have h3 : l'.toFinset.card ≤ l'.length := l'.toFinset_card_le
  have h4 : l'.toFinset ⊆ l.toFinset :=
    Finset.eq_of_subset_of_card_le h2 (by omega) ▸ Finset.Subset.refl _
  have := h4 (List.mem_toFinset.mpr hv)
  exact List.mem_toFinset.mp this

theorem selFold_some (L : String → DLabel) :
    ∀ (l : List String) (b : String), ∃ c, l.foldl (selStep L) (some b) = some c := by
  intro l
  induction l with
  | nil => intro b; exact ⟨b, rfl⟩
  | cons v l ih =>
    intro b
    simp only [List.foldl_cons, selStep]
    by_cases hv : oLT (L v).dist (L b).dist = true
    · rw [if_pos hv]; exact ih v
    · rw [if_neg hv]; exact ih b

theorem selectMin_none {order vis : List String} {L : String → DLabel}
    (h : selectMin order vis L = none) : ∀ v ∈ order, v ∈ vis := by
  rw [selectMin] at h
  rcases hfl : order.filter (fun v => !(vis.contains v)) with _ | ⟨v, fl⟩
  · intro x hx
    by_contra hnx
    have : x ∈ order.filter (fun v => !(vis.contains v)) := by
      rw [List.mem_filter]
      exact ⟨hx, by simp [hnx]⟩
    rw [hfl] at this
    simp at this
  · rw [hfl] at h
    simp only [List.foldl_cons, selStep] at h
    obtain ⟨c, hc⟩ := selFold_some L fl v
    rw [hc] at h
    simp at h

theorem selectMin_min {order vis : List String} {L : String → DLabel} {c : String}
    (h : selectMin order vis L = some c) :
    c ∈ order ∧ c ∉ vis ∧
    (∀ v ∈ order, v ∉ vis → oLT (L v).dist (L c).dist = false) := by
  rw [selectMin] at h
  rcases hfl : order.filter (fun v => !(vis.contains v)) with _ | ⟨v, fl⟩
  · rw [hfl] at h
    simp at h
  · rw [hfl] at h
    simp only [List.foldl_cons, selStep] at h
    obtain ⟨h1, h2, h3⟩ := selFold_spec L fl v c h
    have hcfl : c ∈ order.filter (fun v => !(vis.contains v)) := by
      rw [hfl]
      rcases h3 with hc | ⟨l₁, l₂, hsplit, _⟩
      · rw [hc]; exact List.mem_cons_self _ _
      · rw [hsplit]
        exact List.mem_cons_of_mem _ (List.mem_append_right _ (List.mem_cons_self _ _))
    have hc_mem := List.mem_filter.mp hcfl
    have hc_nvis : c ∉ vis := by
      have := hc_mem.2
      simp at this
      exact this
    refine ⟨hc_mem.1, hc_nvis, ?_⟩
    intro x hx hnx
    have hxfl : x ∈ order.filter (fun v => !(vis.contains v)) := by
      rw [List.mem_filter]
      exact ⟨hx, by simp [hnx]⟩
    rw [hfl] at hxfl
    rcases List.mem_cons.mp hxfl with hxv | hxl
    · subst hxv
      rcases h2 with hc | hc
      · rw [hc]; exact oLT_irrefl _
      · exact oLT_asymm hc
    · exact h1 x hxl

theorem upd_self (L : String → DLabel) (v : String) (d : ℚ) (p : String) :
    (upd L v d p) v = ⟨some d, some p⟩ := by simp [upd]

theorem upd_other (L : String → DLabel) {x v : String} (d : ℚ) (p : String)
    (h : x ≠ v) : (upd L v d p) x = L x := by simp [upd, h]

/-- The loop invariant of `dijkstra()` (dijkstra.py 26-44), relating the
labels `L` and the visited list `vis` (kept in visit order). -/
structure DInv (g : JGraph) (start : String) (order : List String)
    (L : String → DLabel) (vis : List String) : Prop where
  start0 : (L start).dist = some 0 ∧ (L start).prev = none
  nonneg : ∀ v d, (L v).dist = some d → 0 ≤ d
  outOrd : ∀ v, v ∉ order → (L v).dist = none ∧ (L v).prev = none
  visSub : ∀ v ∈ vis, v ∈ order
  visNd : vis.Nodup
  visFin : ∀ u ∈ vis, (L u).dist ≠ none
  frozenJ : ∀ u ∈ vis, ∀ x, x ∉ vis → oLE (L u).dist (L x).dist
  prevProp : ∀ v u, (L v).prev = some u →
    (∃ w, (v, w) ∈ nbrs g u) ∧ (L v).dist ≠ none ∧ (L u).dist ≠ none ∧
    u ∈ vis ∧ idxOf vis u < idxOf vis v
  finReach : ∀ v, (L v).dist ≠ none → Reach g start v
  finPrev : ∀ v, v ≠ start → (L v).dist ≠ none → (L v).prev ≠ none
  closure : ∀ u ∈ vis, ∀ du, (L u).dist = some du →
    ∀ n w, (n, w) ∈ nbrs g u → ∃ dn, (L n).dist = some dn ∧ dn ≤ du + w

theorem DInv_init (g : JGraph) (start : String) (order : List String)
    (hstart : start ∈ order) :
    DInv g start order (initLabels start) [] := by
  refine ⟨?_, ?_, ?_, ?_, ?_, ?_, ?_, ?_, ?_, ?_, ?_⟩
  · simp [initLabels]
  · intro v d hd
    rw [initLabels] at hd
    by_cases hv : v = start
    · rw [if_pos hv] at hd
      simp at hd
      linarith
    · rw [if_neg hv] at hd
      simp at hd
  · intro v hvord
    rw [initLabels]
    by_cases hv : v = start
    · exact absurd (hv ▸ hstart) hvord
    · rw [if_neg hv]
      exact ⟨rfl, rfl⟩
  · intro v hv
    simp at hv
  · exact List.nodup_nil
  · intro u hu
    simp at hu
  · intro u hu
    simp at hu
  · intro v u hvu
    rw [initLabels] at hvu
    by_cases hv : v = start
    · rw [if_pos hv] at hvu
      simp at hvu
    · rw [if_neg hv] at hvu
      simp at hvu
  · intro v hv
    rw [initLabels] at hv
    by_cases hvs : v = start
    · rw [hvs]
      exact Reach.refl
    · rw [if_neg hvs] at hv
      simp at hv
  · intro v hvs hv
    rw [initLabels, if_neg hvs] at hv
    simp at hv
  · intro u hu
    simp at hu

/-- Intermediate invariant while the relaxation loop for the newly
visited vertex `c` runs: `L0` is the label table at selection time,
`dc` the (finite) distance of `c`. -/
structure MidInv (g : JGraph) (start : String) (order : List String)
    (L0 : String → DLabel) (vis : List String) (c : String) (dc : ℚ)
    (L : String → DLabel) : Prop where
  visEq : ∀ u ∈ vis ++ [c], L u = L0 u
  decr : ∀ x, oLE (L x).dist (L0 x).dist
  start0 : (L start).dist = some 0 ∧ (L start).prev = none
  nonneg : ∀ v d, (L v).dist = some d → 0 ≤ d
  outOrd : ∀ v, v ∉ order → (L v).dist = none ∧ (L v).prev = none
  frozenJ : ∀ u ∈ vis ++ [c], ∀ x, x ∉ vis ++ [c] → oLE (L u).dist (L x).dist
  prevProp : ∀ v u, (L v).prev = some u →
    (∃ w, (v, w) ∈ nbrs g u) ∧ (L v).dist ≠ none ∧ (L u).dist ≠ none ∧
    u ∈ vis ++ [c] ∧ idxOf (vis ++ [c]) u < idxOf (vis ++ [c]) v
  finReach : ∀ v, (L v).dist ≠ none → Reach g start v
  finPrev : ∀ v, v ≠ start → (L v).dist ≠ none → (L v).prev ≠ none
  oldClosure : ∀ u ∈ vis, ∀ du, (L u).dist = some du →
    ∀ n w, (n, w) ∈ nbrs g u → ∃ dn, (L n).dist = some dn ∧ dn ≤ du + w

theorem relaxStep_mid {g : JGraph} {start : String} {order : List String}
    {L0 : String → DLabel} {vis : List String} {c : String} {dc : ℚ}
    (hw : ∀ u : String, ∀ p ∈ nbrs g u, 0 ≤ p.2)
    (hcov : ∀ v ∈ vertsOf g, v ∈ order)
    (hInv0 : DInv g start order L0 vis)
    (hc_nvis : c ∉ vis) (hdc : (L0 c).dist = some dc)
    {L : String → DLabel} (hM : MidInv g start order L0 vis c dc L)
    {p : String × ℚ} (hp : p ∈ nbrs g c) :
    MidInv g start order L0 vis c dc (relaxStep c L p) ∧
    (∃ dn, ((relaxStep c L p) p.1).dist = some dn ∧ dn ≤ dc + p.2) ∧
    (∀ x, oLE ((relaxStep c L p) x).dist ((L x).dist)) := by
  have hc_mem : c ∈ vis ++ [c] := List.mem_append_right _ (List.mem_cons_self _ _)
  have hLc : L c = L0 c := hM.visEq c hc_mem
  have hLcd : (L c).dist = some dc := by rw [hLc, hdc]
  have hstep : relaxStep c L p =
      (if oLT (some (dc + p.2)) (L p.1).dist = true then
        upd L p.1 (dc + p.2) c else L) := by
    rw [relaxStep]
    simp only [hLcd]
  by_cases hlt : oLT (some (dc + p.2)) ((L p.1).dist) = true
  · -- the relaxation fires: the neighbour's label improves
    rw [hstep, if_pos hlt]
    have hwp : 0 ≤ p.2 := hw c p hp
    have hp' : (p.1, p.2) ∈ nbrs g c := hp
    have hn_ord : p.1 ∈ order := hcov p.1 (target_mem_verts hp')
    have hn_notvis : p.1 ∉ vis ++ [c] := by
      intro hmem
      have hLn : L p.1 = L0 p.1 := hM.visEq p.1 hmem
      rcases List.mem_append.mp hmem with hin | hin
      · have := hInv0.frozenJ p.1 hin c hc_nvis
        rw [hdc] at this
        obtain ⟨dn, hdn, hle⟩ := oLE_some_dest this
        rw [hLn, hdn] at hlt
        simp [oLT] at hlt
        linarith
      · simp at hin
        subst hin
        rw [hLcd] at hlt
        simp [oLT] at hlt
        linarith
    have hn_start : p.1 ≠ start := by
      intro hns
      rw [hns, hM.start0.1] at hlt
      simp [oLT] at hlt
      have h0 : 0 ≤ dc := hM.nonneg c dc hLcd
      linarith
    have hdecr1 : ∀ x, oLE ((upd L p.1 (dc + p.2) c) x).dist ((L x).dist) := by
      intro x
      by_cases hx : x = p.1
      · subst hx
        rw [upd_self]
        exact oLE_of_oLT hlt
      · rw [upd_other _ _ _ hx]
        exact oLE_refl _
    refine ⟨?_, ?_, hdecr1⟩
    · refine ⟨?_, ?_, ?_, ?_, ?_, ?_, ?_, ?_, ?_, ?_⟩
      · intro u hu
        have hune : u ≠ p.1 := by
          intro hc'
          rw [hc'] at hu
          exact hn_notvis hu
        rw [upd_other _ _ _ hune]
        exact hM.visEq u hu
      · intro x
        exact oLE_trans' (hdecr1 x) (hM.decr x)
      · rw [upd_other _ _ _ (Ne.symm hn_start)]
        exact hM.start0
      · intro v d hd
        by_cases hv : v = p.1
        · subst hv
          rw [upd_self] at hd
          simp at hd
          have h0 : 0 ≤ dc := hM.nonneg c dc hLcd
          rw [← hd]
          linarith
        · rw [upd_other _ _ _ hv] at hd
          exact hM.nonneg v d hd
      · intro v hvord
        have hv : v ≠ p.1 := by
          intro hc'
          rw [hc'] at hvord
          exact hvord hn_ord
        rw [upd_other _ _ _ hv]
        exact hM.outOrd v hvord
      · intro u hu x hx
        have hune : u ≠ p.1 := by
          intro hc'
          rw [hc'] at hu
          exact hn_notvis hu
        rw [upd_other _ _ _ hune]
        by_cases hxn : x = p.1
        · subst hxn
          rw [upd_self]
          rcases List.mem_append.mp hu with hin | hin
          · have := hInv0.frozenJ u hin c hc_nvis
            rw [hdc] at this
            have hLu : L u = L0 u := hM.visEq u hu
            rw [hLu]
            exact oLE_some_mono this (by linarith)
          · simp at hin
            subst hin
            rw [hLcd]
            simp [oLE]
            linarith
        · rw [upd_other _ _ _ hxn]
          exact hM.frozenJ u hu x hx
      · intro v u hvu
        by_cases hv : v = p.1
        · subst hv
          rw [upd_self] at hvu
          simp at hvu
          have hn_nc : p.1 ≠ c := by
            intro hc'
            rw [hc'] at hn_notvis
            exact hn_notvis hc_mem
          subst hvu
          refine ⟨⟨p.2, hp'⟩, ?_, ?_, hc_mem, ?_⟩
          · rw [upd_self]
            simp
          · rw [upd_other _ _ _ (Ne.symm hn_nc)]
            rw [hLcd]
            simp
          · have hcidx : idxOf (vis ++ [c]) c = vis.length := by
              rw [idxOf_append_of_not_mem hc_nvis]
              simp [idxOf]
            have hnidx : idxOf (vis ++ [c]) p.1 = vis.length + 1 := by
              have hn_nv : p.1 ∉ vis := fun hc' =>
                hn_notvis (List.mem_append_left _ hc')
              rw [idxOf_append_of_not_mem hn_nv]
              rw [idxOf]
              rw [if_neg (Ne.symm hn_nc)]
              simp [idxOf]
            rw [hcidx, hnidx]
            omega
        · rw [upd_other _ _ _ hv] at hvu
          obtain ⟨hedge, hdv, hdu, humem, hidx⟩ := hM.prevProp v u hvu
          refine ⟨hedge, ?_, ?_, humem, hidx⟩
          · rw [upd_other _ _ _ hv]
            exact hdv
          · have hune : u ≠ p.1 := by
              intro hc'
              rw [hc'] at humem
              exact hn_notvis humem
            rw [upd_other _ _ _ hune]
            exact hdu
      · intro v hv
        by_cases hvn : v = p.1
        · subst hvn
          have hreach_c : Reach g start c := by
            apply hM.finReach c
            rw [hLcd]
            simp
          exact Reach.step hreach_c hp'
        · rw [upd_other _ _ _ hvn] at hv
          exact hM.finReach v hv
      · intro v hvs hv
        by_cases hvn : v = p.1
        · subst hvn
          rw [upd_self]
          simp
        · rw [upd_other _ _ _ hvn] at hv ⊢
          exact hM.finPrev v hvs hv
      · intro u hu du hdu n' w' hn'
        have hun : u ≠ p.1 := by
          intro hc'
          rw [hc'] at hu
          exact hn_notvis (List.mem_append_left _ hu)
        rw [upd_other _ _ _ hun] at hdu
        obtain ⟨dn, hdn, hle⟩ := hM.oldClosure u hu du hdu n' w' hn'
        have := hdecr1 n'
        rw [hdn] at this
        obtain ⟨dn', hdn', hle'⟩ := oLE_some_dest this
        exact ⟨dn', hdn', by linarith⟩
    · refine ⟨dc + p.2, ?_, le_refl _⟩
      rw [upd_self]
  · -- no improvement: the neighbour already satisfies the bound
    rw [hstep, if_neg hlt]
    have hfalse : oLT (some (dc + p.2)) ((L p.1).dist) = false :=
      eq_false_of_ne_true hlt
    have := oLE_of_oLT_false hfalse
    obtain ⟨dn, hdn, hle⟩ := oLE_some_dest this
    exact ⟨hM, ⟨dn, hdn, hle⟩, fun x => oLE_refl _⟩

theorem relaxFold_mid {g : JGraph} {start : String} {order : List String}
    {L0 : String → DLabel} {vis : List String} {c : String} {dc : ℚ}
    (hw : ∀ u : String, ∀ p ∈ nbrs g u, 0 ≤ p.2)
    (hcov : ∀ v ∈ vertsOf g, v ∈ order)
    (hInv0 : DInv g start order L0 vis)
    (hc_nvis : c ∉ vis) (hdc : (L0 c).dist = some dc) :
    ∀ (ns : List (String × ℚ)) (L : String → DLabel),
      (∀ p ∈ ns, p ∈ nbrs g c) →
      MidInv g start order L0 vis c dc L →
      MidInv g start order L0 vis c dc (ns.foldl (relaxStep c) L) ∧
      (∀ x, oLE ((ns.foldl (relaxStep c) L) x).dist ((L x).dist)) ∧
      (∀ p ∈ ns, ∃ dn, ((ns.foldl (relaxStep c) L) p.1).dist = some dn ∧
        dn ≤ dc + p.2) := by
  intro ns
  induction ns with
  | nil =>
    intro L _ hM
    refine ⟨hM, fun x => oLE_refl _, ?_⟩
    intro p hp
    simp at hp
  | cons p ns ih =>
    intro L hmem hM
    have hp : p ∈ nbrs g c := hmem p (List.mem_cons_self _ _)
    obtain ⟨hM1, ⟨dn, hdn, hle⟩, hdec1⟩ :=
      relaxStep_mid hw hcov hInv0 hc_nvis hdc hM hp
    obtain ⟨hMf, hdecf, hbds⟩ := ih (relaxStep c L p)
      (fun q hq => hmem q (List.mem_cons_of_mem _ hq)) hM1
    rw [List.foldl_cons]
    refine ⟨hMf, ?_, ?_⟩
    · intro x
      exact oLE_trans' (hdecf x) (hdec1 x)
    · intro q hq
      rcases List.mem_cons.mp hq with hq1 | hq2
      · subst hq1
        have hdq := hdecf q.1
        rw [hdn] at hdq
        obtain ⟨dn', hdn', hle'⟩ := oLE_some_dest hdq
        exact ⟨dn', hdn', by linarith⟩
      · exact hbds q hq2

theorem relaxAll_DInv {g : JGraph} {start : String} {order : List String}
    {L0 : String → DLabel} {vis : List String} {c : String} {dc : ℚ}
    (hw : ∀ u : String, ∀ p ∈ nbrs g u, 0 ≤ p.2)
    (hcov : ∀ v ∈ vertsOf g, v ∈ order)
    (hInv0 : DInv g start order L0 vis)
    (hsel : selectMin order vis L0 = some c)
    (hdc : (L0 c).dist = some dc) :
    DInv g start order (relaxAll g c L0) (vis ++ [c]) := by
  obtain ⟨hc_ord, hc_nvis, hmin⟩ := selectMin_min hsel
  have hc_mem : c ∈ vis ++ [c] := List.mem_append_right _ (List.mem_cons_self _ _)
  have hM0 : MidInv g start order L0 vis c dc L0 := by
    refine ⟨fun u _ => rfl, fun x => oLE_refl _, hInv0.start0, hInv0.nonneg,
      hInv0.outOrd, ?_, ?_, hInv0.finReach, hInv0.finPrev, hInv0.closure⟩
    · intro u hu x hx
      have hxv : x ∉ vis := fun h => hx (List.mem_append_left _ h)
      rcases List.mem_append.mp hu with hin | hin
      · exact hInv0.frozenJ u hin x hxv
      · simp at hin
        subst hin
        by_cases hxo : x ∈ order
        · exact oLE_of_oLT_false (hmin x hxo hxv)
        · rw [(hInv0.outOrd x hxo).1]
          exact oLE_none_right _
    · intro v u hvu
      obtain ⟨hedge, hdv, hdu, humem, hidx⟩ := hInv0.prevProp v u hvu
      refine ⟨hedge, hdv, hdu, List.mem_append_left _ humem, ?_⟩
      have hui : idxOf (vis ++ [c]) u = idxOf vis u := idxOf_append_of_mem humem _
      by_cases hv_vis : v ∈ vis
      · rw [hui, idxOf_append_of_mem hv_vis]
        exact hidx
      · rw [hui, idxOf_append_of_not_mem hv_vis]
        have := idxOf_lt_length_of_mem humem
        omega
  obtain ⟨hMf, _, hbds⟩ := relaxFold_mid hw hcov hInv0 hc_nvis hdc
    (nbrs g c) L0 (fun _ hp => hp) hM0
  have hLfc : relaxAll g c L0 c = L0 c := hMf.visEq c hc_mem
  refine ⟨hMf.start0, hMf.nonneg, hMf.outOrd, ?_, ?_, ?_, hMf.frozenJ,
    hMf.prevProp, hMf.finReach, hMf.finPrev, ?_⟩
  · intro v hv
    rcases List.mem_append.mp hv with hin | hin
    · exact hInv0.visSub v hin
    · simp at hin
      subst hin
      exact hc_ord
  · rw [List.nodup_append]
    refine ⟨hInv0.visNd, List.nodup_singleton c, ?_⟩
    intro a ha hb
    simp at hb
    subst hb
    exact hc_nvis ha
  · intro u hu
    have hLu : relaxAll g c L0 u = L0 u := hMf.visEq u hu
    rw [hLu]
    rcases List.mem_append.mp hu with hin | hin
    · exact hInv0.visFin u hin
    · simp at hin
      subst hin
      rw [hdc]
      simp
  · intro u hu du hdu n w hn
    rcases List.mem_append.mp hu with hin | hin
    · exact hMf.oldClosure u hin du hdu n w hn
    · simp at hin
      subst hin
      rw [hLfc, hdc] at hdu
      simp at hdu
      obtain ⟨dn, hdn, hle⟩ := hbds (n, w) hn
      refine ⟨dn, hdn, ?_⟩
      rw [hdu] at hle
      exact hle

theorem dloop_DInv {g : JGraph} {start : String} {order : List String}
    (hw : ∀ u : String, ∀ p ∈ nbrs g u, 0 ≤ p.2)
    (hcov : ∀ v ∈ vertsOf g, v ∈ order) :
    ∀ (fuel : ℕ) (L : String → DLabel) (vis : List String),
      DInv g start order L vis →
      order.length ≤ fuel + vis.length →
      DInv g start order (dloop g order fuel L vis).1 (dloop g order fuel L vis).2 ∧
      ∀ v ∈ order, v ∉ (dloop g order fuel L vis).2 →
        ((dloop g order fuel L vis).1 v).dist = none := by
  intro fuel
  induction fuel with
  | zero =>
    intro L vis hInv hlen
    rw [dloop_zero]
    refine ⟨hInv, ?_⟩
    intro v hv hnv
    exact absurd (mem_of_nodup_length hInv.visNd
      (fun _ h => hInv.visSub _ h) (by omega) v hv) hnv
  | succ fuel ih =>
    intro L vis hInv hlen
    rw [dloop_succ]
    by_cases hguard : vis.length < order.length
    · rw [if_pos hguard]
      rcases hsel : selectMin order vis L with _ | c
      · simp only
        refine ⟨hInv, ?_⟩
        intro v hv hnv
        exact absurd (selectMin_none hsel v hv) hnv
      · simp only
        rcases hdist : (L c).dist with _ | dc
        · simp only
          refine ⟨hInv, ?_⟩
          intro v hv hnv
          obtain ⟨_, _, hmin⟩ := selectMin_min hsel
          have hvlt := hmin v hv hnv
          rw [hdist] at hvlt
          exact eq_none_of_oLT_none_false hvlt
        · simp only
          have hInv' := relaxAll_DInv hw hcov hInv hsel hdist
          have hlen' : order.length ≤ fuel + (vis ++ [c]).length := by
            simp
            omega
          exact ih (relaxAll g c L) (vis ++ [c]) hInv' hlen'
    · rw [if_neg hguard]
      refine ⟨hInv, ?_⟩
      intro v hv hnv
      exact absurd (mem_of_nodup_length hInv.visNd
        (fun _ h => hInv.visSub _ h) (by omega) v hv) hnv

theorem reach_mem_order {g : JGraph} {start v : String} {order : List String}
    (hcov : ∀ x ∈ vertsOf g, x ∈ order) (hstart : start ∈ order)
    (h : Reach g start v) : v ∈ order := by
  induction h with
  | refl => exact hstart
  | step _ hn _ => exact hcov _ (target_mem_verts hn)

theorem runD_complete {g : JGraph} {start : String} {order : List String}
    (hw : ∀ u : String, ∀ p ∈ nbrs g u, 0 ≤ p.2)
    (hcov : ∀ x ∈ vertsOf g, x ∈ order) (hstart : start ∈ order) :
    ∀ v, Reach g start v → ((runD g order start).1 v).dist ≠ none := by
  obtain ⟨hInv, hE1⟩ := dloop_DInv hw hcov order.length (initLabels start) []
    (DInv_init g start order hstart) (by simp)
  intro v hv
  induction hv with
  | refl =>
    show ((dloop g order order.length (initLabels start) []).1 start).dist ≠ none
    rw [hInv.start0.1]
    simp
  | step hr hn ih =>
    rename_i u v w
    show ((dloop g order order.length (initLabels start) []).1 v).dist ≠ none
    have ihu : ((dloop g order order.length (initLabels start) []).1 u).dist ≠ none := ih
    have hu_ord : u ∈ order := reach_mem_order hcov hstart hr
    have hu_vis : u ∈ (dloop g order order.length (initLabels start) []).2 := by
      by_contra hnv
      exact ihu (hE1 u hu_ord hnv)
    rcases hdu : ((dloop g order order.length (initLabels start) []).1 u).dist
        with _ | du
    · exact absurd hdu ihu
    · obtain ⟨dn, hdn, _⟩ := hInv.closure u hu_vis du hdu v w hn
      rw [hdn]
      simp

theorem walkF_spec {g : JGraph} {start : String} {order : List String}
    {L : String → DLabel} {vis : List String}
    (hInv : DInv g start order L vis) :
    ∀ (fuel : ℕ) (v : String), (L v).dist ≠ none → idxOf vis v < fuel →
      (walkF L fuel v).head? = some v ∧
      (walkF L fuel v).getLast? = some start := by
  intro fuel
  induction fuel with
  | zero =>
    intro v _ hidx
    omega
  | succ fuel ih =>
    intro v hv hidx
    rw [walkF_succ]
    rcases hprev : (L v).prev with _ | u
    · have hvs : v = start := by
        by_contra hne
        exact hInv.finPrev v hne hv hprev
      simp only [hprev]
      subst hvs
      exact ⟨rfl, rfl⟩
    · simp only [hprev]
      obtain ⟨_, _, hdu, _, hlt⟩ := hInv.prevProp v u hprev
      have hidxu : idxOf vis u < fuel := by omega
      obtain ⟨hh, hl⟩ := ih u hdu hidxu
      refine ⟨rfl, ?_⟩
      rcases hwalk : walkF L fuel u with _ | ⟨a, rest⟩
      · rw [hwalk] at hh
        simp at hh
      · rw [hwalk] at hl
        rw [List.getLast?_cons_cons]
        exact hl

theorem build_path_correct {g : JGraph} {start : String} {order : List String}
    {L : String → DLabel} {vis : List String}
    (hInv : DInv g start order L vis) (v : String) :
    (¬ Reach g start v → build_path order start L v = []) ∧
    (v ∉ order → v ≠ start → build_path order start L v = []) ∧
    build_path order start L start = [start] ∧
    ((L v).dist ≠ none →
      (build_path order start L v).head? = some start ∧
      (build_path order start L v).getLast? = some v) := by
  have hstart_path : build_path order start L start = [start] := by
    rw [build_path]
    rw [if_pos (Or.inr hInv.start0.2)]
    rw [if_pos rfl]
  refine ⟨?_, ?_, hstart_path, ?_⟩
  · intro hnr
    have hne : v ≠ start := by
      intro h
      rw [h] at hnr
      exact hnr Reach.refl
    have hprev : (L v).prev = none := by
      rcases hp : (L v).prev with _ | u
      · rfl
      · obtain ⟨_, hdv, _, _, _⟩ := hInv.prevProp v u hp
        exact absurd (hInv.finReach v hdv) hnr
    rw [build_path, if_pos (Or.inr hprev), if_neg hne]
  · intro hvo hne
    rw [build_path, if_pos (Or.inl hvo), if_neg hne]
  · intro hdv
    by_cases hvs : v = start
    · subst hvs
      rw [hstart_path]
      exact ⟨rfl, rfl⟩
    · have hprev : (L v).prev ≠ none := hInv.finPrev v hvs hdv
      have hvo : v ∈ order := by
        by_contra hvo
        exact hdv (hInv.outOrd v hvo).1
      rw [build_path, if_neg (by push_neg; exact ⟨hvo, hprev⟩)]
      have hidx : idxOf vis v < order.length + 1 := by
        have h1 : idxOf vis v ≤ vis.length := idxOf_le_length vis v
        have h2 : vis.length ≤ order.length :=
          nodup_sub_length hInv.visNd (fun _ h => hInv.visSub _ h)
        omega
      obtain ⟨hh, hl⟩ := walkF_spec hInv (order.length + 1) v hdv hidx
      constructor
      · rw [List.head?_reverse]
        exact hl
      · rw [List.getLast?_reverse]
        exact hh

/-- **C10**: after `dijkstra()` from `start`, `build_path(v)` returns `[]`
for every `v` unreachable from `start` and for every `v` absent from the
label table (other than `start` itself), returns `[start]` at the start
vertex, and for every reachable `v` returns a path that begins at `start`
and ends at `v` — for any edge graph with nonnegative weights, any vertex
enumeration covering the graph, and any start vertex in the enumeration. -/
theorem C10_build_path_spec {g : JGraph} {order : List String} {start : String}
    (hw : ∀ u : String, ∀ p ∈ nbrs g u, 0 ≤ p.2)
    (hcov : ∀ x ∈ vertsOf g, x ∈ order)
    (hstart : start ∈ order) (v : String) :
    (¬ Reach g start v → dijkstraPath g order start v = []) ∧
    (v ∉ order → v ≠ start → dijkstraPath g order start v = []) ∧
    dijkstraPath g order start start = [start] ∧
    (Reach g start v →
      (dijkstraPath g order start v).head? = some start ∧
      (dijkstraPath g order start v).getLast? = some v) := by
  obtain ⟨hInv, _⟩ := dloop_DInv hw hcov order.length (initLabels start) []
    (DInv_init g start order hstart) (by simp)
  obtain ⟨ha, hb, hc, hd⟩ := build_path_correct hInv v
  refine ⟨ha, hb, hc, ?_⟩
  intro hr
  exact hd (runD_complete hw hcov hstart v hr)

theorem hwEx : ∀ u : String, ∀ p ∈ nbrs gEx u, 0 ≤ p.2 := by
  intro u p hp
  obtain ⟨l, hgl, hpl⟩ := nbrs_dest hp
  simp only [gEx, List.mem_cons, List.not_mem_nil, or_false, Prod.mk.injEq] at hgl
  rcases hgl with h | h | h <;> rw [h.2] at hpl <;> simp at hpl <;>
    (first
      | (rcases hpl with h1 | h1 <;> rw [h1] <;> norm_num)
      | (rw [hpl]; norm_num))

/-- Witness for C10: on the concrete diamond graph, `t` is reachable from
`s` and the computed path starts at `s` and ends at `t`; an off-graph
vertex gets the empty path and the start vertex gets `[s]`. -/
theorem C10_build_path_spec_witness :
    Reach gEx sV tV ∧
    (dijkstraPath gEx ordEx1 sV tV).head? = some sV ∧
    (dijkstraPath gEx ordEx1 sV tV).getLast? = some tV ∧
    dijkstraPath gEx ordEx1 sV sV = [sV] ∧
    dijkstraPath gEx ordEx1 sV "z" = [] := by
  have hcov : ∀ x ∈ vertsOf gEx, x ∈ ordEx1 := by decide
  have hstart : sV ∈ ordEx1 := by decide
  have hsa : (aV, (1:ℚ)) ∈ nbrs gEx sV := by decide
  have hat : (tV, (1:ℚ)) ∈ nbrs gEx aV := by decide
  have hreach : Reach gEx sV tV := Reach.step (Reach.step Reach.refl hsa) hat
  have hzo : "z" ∉ ordEx1 := by decide
  have hzs : "z" ≠ sV := by decide
  have ht := C10_build_path_spec hwEx hcov hstart tV
  have hz := C10_build_path_spec hwEx hcov hstart "z"
  obtain ⟨hth, htl⟩ := ht.2.2.2 hreach
  exact ⟨hreach, hth, htl, ht.2.2.1, hz.2.1 hzo hzs⟩
